import Mathlib

/-!
Knight's tours by ant colony optimisation: a verification development.

A shallow embedding of `knight.go` (soniakeys/knight).

Modelling conventions.

* Go `int` values (rows, columns, offsets) are `Int`/`Nat`; every value that
  occurs stays far inside the 64-bit range, so no wrap-around is modelled.
* `float64` is modelled by the exact rationals `ℚ`.
* A Go slice is a `List`; an index outside the slice is a run-time panic and
  is modelled by the fault `Fault.indexOutOfRange`.
* The random generator `rnd` is a stream `draws : Nat → ℚ` together with the
  number of values drawn so far.
* The unbounded `for` loop of the agent is run with a fuel counter; running
  out of fuel is the separate fault `Fault.outOfFuel`.
* A Go map whose values are all `1` is the finite set of its keys, and a key
  (a Go string) is the list of its bytes.
* The tours that the coordinator receives on the channel in a cycle are given
  as a function from the number of the receive to the tour; the goroutines and
  their synchronisation are not modelled.
* The unbounded loop of repeats is run for a given list of repeat numbers.
-/

namespace Knight

/-! ## Constants and the move table -/

/-- Source: `const boardSize = 8`. -/
def boardSize : Nat := 8

/-- Source: `const nSquares = boardSize * boardSize`. -/
def nSquares : Nat := boardSize * boardSize

/-- Source: `const completeTour = nSquares - 1`. -/
def completeTour : Nat := nSquares - 1

/-- Source: `var drc`, the row and column deltas of the eight knight moves. -/
def drc : List (Int × Int) :=
  [(1, 2), (2, 1), (2, -1), (1, -2), (-1, -2), (-2, -1), (-2, 1), (-1, 2)]

/-- Faults of a run: a slice index out of range (a Go panic), or the fuel of
the model running out. -/
inductive Fault where
  | indexOutOfRange
  | outOfFuel
  deriving DecidableEq, Repr

/-- Source: `func dest(r, c, k int) (int, int, bool)`.  The square reached by
edge `k` from `(r, c)` and the flag that it is on the board; `none` is the
panic of `drc[k]` for an index outside the table. -/
def dest (r c : Int) (k : Nat) : Option (Int × Int × Bool) :=
  match drc.get? k with
  | none => none
  | some d =>
    let r1 := r + d.1
    let c1 := c + d.2
    some (r1, c1, decide (r1 ≥ 0) && decide (r1 < (boardSize : Int))
      && decide (c1 ≥ 0) && decide (c1 < (boardSize : Int)))

/-- Source: `type rckt struct`, a pheromone amount associated with a move. -/
structure rckt where
  r : Int
  c : Int
  k : Nat
  t : ℚ
  deriving DecidableEq, Repr

instance : Inhabited rckt := ⟨⟨0, 0, 0, 0⟩⟩

/-- Source: `type square struct`. -/
structure square where
  r : Int
  c : Int
  deriving DecidableEq, Repr

/-- Reading `xs[i]` for a Go `int` index; `none` is the index panic. -/
def readAt (xs : List ℚ) (i : Int) : Option ℚ :=
  if i < 0 then none else xs.get? i.toNat

/-- Index of edge `k` of square `(r, c)` in the pheromone slices, the
expression `(r*boardSize+c)*8+k` of the source. -/
def edgeIndex (r c : Int) (k : Nat) : Int :=
  (r * (boardSize : Int) + c) * 8 + (k : Int)

/-! ## The agent -/

/-- Source: the loop `findU` of `ant` (lines 185-199), run over the offset
indices `ks` still to be tried, with the candidate list `unexp` and the total
`tSum` accumulated so far. -/
def findU (tNet : List ℚ) (tabu : List square) (r c : Int) :
    List Nat → List rckt → ℚ → Except Fault (List rckt × ℚ)
  | [], unexp, tSum => .ok (unexp, tSum)
  | k :: ks, unexp, tSum =>
    match dest r c k with
    | none => .error .indexOutOfRange
    | some (dr, dc, ok) =>
      if !ok then findU tNet tabu r c ks unexp tSum
      else if tabu.any (fun t => decide (t.r = dr) && decide (t.c = dc)) then
        findU tNet tabu r c ks unexp tSum
      else
        match readAt tNet (edgeIndex r c k) with
        | none => .error .indexOutOfRange
        | some tk => findU tNet tabu r c ks (unexp ++ [⟨dr, dc, k, tk⟩]) (tSum + tk)

/-- Source: the selection scan of `ant` (lines 204-210): `move` is assigned
each candidate in turn, the scan stops at the first one with `rn <= move.t`
and otherwise subtracts `move.t` from `rn`. -/
def pick : ℚ → rckt → List rckt → rckt
  | _, move, [] => move
  | rn, _, m :: ms => if rn ≤ m.t then m else pick (rn - m.t) m ms

/-- The variables of `ant` that live across the iterations of the walk. -/
structure AntState where
  r : Int
  c : Int
  tabu : List square
  moves : List rckt
  rnd : Nat
  deriving DecidableEq, Repr

/-- Outcome of one iteration of the walk loop of `ant` (lines 180-217). -/
inductive Step where
  | next (s : AntState)
  | stop
  | fault
  deriving DecidableEq, Repr

/-- Source: one iteration of the loop at lines 180-217 of `ant`. -/
def antStep (tNet : List ℚ) (draws : Nat → ℚ) (s : AntState) : Step :=
  match findU tNet s.tabu s.r s.c (List.range 8) [] 0 with
  | .error _ => .fault
  | .ok (unexp, tSum) =>
    if unexp.length = 0 then .stop
    else
      let rn := draws s.rnd * tSum
      let move := pick rn default unexp
      .next { r := move.r, c := move.c,
              tabu := s.tabu ++ [⟨move.r, move.c⟩],
              moves := s.moves ++ [{ move with r := s.r, c := s.c }],
              rnd := s.rnd + 1 }

/-- Source: the loop at lines 180-217 of `ant`, with fuel. -/
def antLoop (tNet : List ℚ) (draws : Nat → ℚ) : Nat → AntState → Except Fault AntState
  | 0, _ => .error .outOfFuel
  | fuel + 1, s =>
    match antStep tNet draws s with
    | .stop => .ok s
    | .fault => .error .indexOutOfRange
    | .next s1 => antLoop tNet draws fuel s1

/-- Source: the right-hand side of line 221,
`float64(len(moves)-i) / float64(completeTour-i)`. -/
def depositValue (len i : Nat) : ℚ :=
  (((len : Int) - (i : Int) : Int) : ℚ) / ((((completeTour : Nat) : Int) - (i : Int) : Int) : ℚ)

/-- Source: the loop at lines 220-222 of `ant`, from index `i` on. -/
def depositFrom (len : Nat) : Nat → List rckt → List rckt
  | _, [] => []
  | i, m :: ms => { m with t := depositValue len i } :: depositFrom len (i + 1) ms

/-- Source: lines 219-222 of `ant`. -/
def deposit (moves : List rckt) : List rckt :=
  depositFrom moves.length 0 moves

/-- State of the agent at the start of a cycle (lines 171-174), home `(r, c)`. -/
def antInit (r c : Int) (rnd : Nat) : AntState :=
  { r := r, c := c, tabu := [⟨r, c⟩], moves := [], rnd := rnd }

/-- Source: one cycle of `ant` (lines 171-225); the state of the agent when it
sends its tour, `moves` holding the tour. -/
def antCycle (tNet : List ℚ) (draws : Nat → ℚ) (fuel : Nat) (r c : Int) :
    Except Fault AntState :=
  match antLoop tNet draws fuel (antInit r c 0) with
  | .error e => .error e
  | .ok s => .ok { s with moves := deposit s.moves }

/-- The tour that the agent of home `(r, c)` sends in one cycle. -/
def ant (tNet : List ℚ) (draws : Nat → ℚ) (fuel : Nat) (r c : Int) :
    Except Fault (List rckt) :=
  match antCycle tNet draws fuel r c with
  | .error e => .error e
  | .ok s => .ok s.moves

/-! ## The coordinator -/

/-- Go conversion `byte(x)` of an `int`: the low eight bits. -/
def toByte (x : Int) : Nat :=
  (x % 256).toNat

/-- Assignment `buf[i] = v` to a byte slice; `none` is the index panic. -/
def writeByte (buf : List Nat) (i : Nat) (v : Nat) : Option (List Nat) :=
  if i < buf.length then some (buf.set i v) else none

/-- Source: the loop at lines 104-106 of `main`, `tbuf[i+2] = byte(m.k)` for
the moves from index `i` on. -/
def fillKey : List Nat → Nat → List rckt → Option (List Nat)
  | tbuf, _, [] => some tbuf
  | tbuf, i, m :: ms =>
    match writeByte tbuf (i + 2) (toByte (m.k : Int)) with
    | none => none
    | some tbuf1 => fillKey tbuf1 (i + 1) ms

/-- Source: lines 102-107 of `main`: the key of a tour, built in the reused
buffer `tbuf`.  The result is the buffer after the writes; `string(tbuf)` copies
exactly these bytes. -/
def buildKey (tbuf : List Nat) (tour : List rckt) : Option (List Nat) :=
  match tour[0]? with
  | none => none
  | some m0 =>
    match writeByte tbuf 0 (toByte m0.r) with
    | none => none
    | some tbuf1 =>
      match writeByte tbuf1 1 (toByte m0.c) with
      | none => none
      | some tbuf2 => fillKey tbuf2 0 tour

/-- Assignment `xs[i] += v` for a Go `int` index; `none` is the index panic. -/
def addAt (xs : List ℚ) (i : Int) (v : ℚ) : Option (List ℚ) :=
  match readAt xs i with
  | none => none
  | some x => some (xs.set i.toNat (x + v))

/-- Source: the loop at lines 112-114 of `main`. -/
def accumulate : List ℚ → List rckt → Option (List ℚ)
  | tNew, [] => some tNew
  | tNew, move :: rest =>
    match addAt tNew (edgeIndex move.r move.c move.k) move.t with
    | none => none
    | some tNew1 => accumulate tNew1 rest

/-- The variables of `main` that live across cycles.  A Go map whose values
are all `1` is modelled by the finite set of its keys, a key by its bytes. -/
structure Coord where
  tNet : List ℚ
  tNew : List ℚ
  unique : Finset (List Nat)
  allUnique : Finset (List Nat)
  tbuf : List Nat

/-- Source: the body of the gathering loop (lines 99-114 of `main`) for one
received tour. -/
def gatherTour (st : Coord) (tour : List rckt) : Except Fault Coord :=
  if tour.length = completeTour then
    match buildKey st.tbuf tour with
    | none => .error .indexOutOfRange
    | some key =>
      match accumulate st.tNew tour with
      | none => .error .indexOutOfRange
      | some tNew1 =>
        .ok { st with tbuf := key, unique := insert key st.unique,
                      allUnique := insert key st.allUnique, tNew := tNew1 }
  else
    match accumulate st.tNew tour with
    | none => .error .indexOutOfRange
    | some tNew1 => .ok { st with tNew := tNew1 }

/-- Source: the gathering loop at lines 98-115 of `main`, over the indices `is`
still to come; `tch i` is the `i`-th tour received on the channel in the
cycle. -/
def gather (tch : Nat → List rckt) : List Nat → Coord → Except Fault Coord
  | [], st => .ok st
  | i :: is, st =>
    match gatherTour st (tch i) with
    | .error e => .error e
    | .ok st1 => gather tch is st1

/-- Source: the loop at lines 118-121 of `main`, `tNet[i] += tn; tNew[i] = 0`
over the entries of `tNew`; `none` is the index panic on a shorter `tNet`. -/
def mergeLoop : List ℚ → List ℚ → Option (List ℚ × List ℚ)
  | tNet, [] => some (tNet, [])
  | [], _ :: _ => none
  | x :: xs, tn :: tns =>
    match mergeLoop xs tns with
    | none => none
    | some p => some ((x + tn) :: p.1, 0 :: p.2)

/-- Source: the loop at lines 88-90 of `main`, `tNet[i] *= .75`. -/
def evaporate (tNet : List ℚ) : List ℚ :=
  tNet.map fun x => x * (3 / 4)

/-- Source: one cycle of the coordinator (lines 87-121 of `main`): evaporate,
gather the `nSquares` tours, merge. -/
def cycle (st : Coord) (tch : Nat → List rckt) : Except Fault Coord :=
  match gather tch (List.range nSquares) { st with tNet := evaporate st.tNet } with
  | .error e => .error e
  | .ok st1 =>
    match mergeLoop st1.tNet st1.tNew with
    | none => .error .indexOutOfRange
    | some p => .ok { st1 with tNet := p.1, tNew := p.2 }

/-! ## Seeding and the repeats of the coordinator -/

/-- Source: `const cycles = 27000`. -/
def cycles : Nat := 27000

/-- Assignment `xs[i] = v` for a Go `int` index; `none` is the index panic. -/
def writeAt (xs : List ℚ) (i : Int) (v : ℚ) : Option (List ℚ) :=
  match readAt xs i with
  | none => none
  | some _ => some (xs.set i.toNat v)

/-- A `for` loop over the elements of `as` whose body updates a slice and may
panic. -/
def forEach {α : Type} (body : α → List ℚ → Option (List ℚ)) :
    List α → List ℚ → Option (List ℚ)
  | [], xs => some xs
  | a :: as, xs =>
    match body a xs with
    | none => none
    | some xs1 => forEach body as xs1

/-- Source: the body of the innermost loop of the initialisation (lines 78-80
of `main`): `if _, _, ok := dest(r, c, k); ok { tNet[...] = 1e-6 }`. -/
def seedEdge (r c : Int) (k : Nat) (tNet : List ℚ) : Option (List ℚ) :=
  match dest r c k with
  | none => none
  | some (_, _, ok) =>
    if ok then writeAt tNet (edgeIndex r c k) (1 / 1000000) else some tNet

/-- Source: "initialize board", the three nested loops at lines 74-83 of
`main`. -/
def seed (tNet : List ℚ) : Option (List ℚ) :=
  forEach (fun (r : Nat) => forEach (fun (c : Nat) =>
    forEach (fun (k : Nat) => seedEdge (r : Int) (c : Int) k) (List.range 8))
    (List.range boardSize)) (List.range boardSize) tNet

/-- State of the coordinator before the first repeat: the slices as `make`
allocates them (lines 23, 57, 61), the cumulative key set empty (line 60). -/
def coordInit : Coord :=
  { tNet := List.replicate (nSquares * 8) 0, tNew := List.replicate (nSquares * 8) 0,
    unique := ∅, allUnique := ∅, tbuf := List.replicate (2 + completeTour) 0 }

/-- Source: the loop of cycles (lines 86-122 of `main`) over the cycle indices
`is` still to come; `tchs i` is what the channel delivers in cycle `i`. -/
def cyclesLoop (tchs : Nat → Nat → List rckt) : List Nat → Coord → Except Fault Coord
  | [], st => .ok st
  | i :: is, st =>
    match cycle st (tchs i) with
    | .error e => .error e
    | .ok st1 => cyclesLoop tchs is st1

/-- Source: the body of one repeat up to the statistics (lines 72-122 of
`main`): a fresh per-repeat key set, seeding, then `cycles` cycles.  The result
is the state in which the statistics of the repeat are printed. -/
def repeatBody (st : Coord) (tchs : Nat → Nat → List rckt) : Except Fault Coord :=
  match seed st.tNet with
  | none => .error .indexOutOfRange
  | some tNet1 => cyclesLoop tchs (List.range cycles) { st with unique := ∅, tNet := tNet1 }

/-- The integers that line 128 prints for a repeat: its number, the sizes of
the two key sets and the number of attempts. -/
structure Report where
  rep : Nat
  unique : Nat
  allUnique : Nat
  attempts : Nat
  deriving DecidableEq, Repr

/-- Source: the integer arguments of `fmt.Printf` at lines 128-129. -/
def report (rep : Nat) (st : Coord) : Report :=
  { rep := rep, unique := st.unique.card, allUnique := st.allUnique.card,
    attempts := rep * cycles * nSquares }

/-- Source: the loop of repeats (line 71 of `main`) over the repeat numbers
`reps` still to come; `tch rep i` is what the channel delivers in cycle `i` of
repeat `rep`.  The result lists the states in which the statistics of the
repeats are printed. -/
def repeats (tch : Nat → Nat → Nat → List rckt) : List Nat → Coord → Except Fault (List Coord)
  | [], _ => .ok []
  | rep :: reps, st =>
    match repeatBody st (tch rep) with
    | .error e => .error e
    | .ok st1 =>
      match repeats tch reps st1 with
      | .error e => .error e
      | .ok trace => .ok (st1 :: trace)

/-! ## Notions used to state the properties -/

/-- A square lies on the board. -/
def onBoard (r c : Int) : Prop :=
  0 ≤ r ∧ r < (boardSize : Int) ∧ 0 ≤ c ∧ c < (boardSize : Int)

instance (r c : Int) : Decidable (onBoard r c) := by
  unfold onBoard; infer_instance

/-- The destinations that `dest` flags as on the board, over `k = 0..7`. -/
def flaggedDests (r c : Int) : List (Int × Int) :=
  (List.range 8).filterMap fun k =>
    match dest r c k with
    | some (r1, c1, true) => some (r1, c1)
    | _ => none

/-- Destination square of a move element: the square that `dest` gives for its
origin and offset index. -/
def moveDest (m : rckt) : square :=
  match dest m.r m.c m.k with
  | some (r1, c1, _) => ⟨r1, c1⟩
  | none => ⟨m.r, m.c⟩

/-- Squares visited by a tour from `home`: the home square followed by the
destination of each move. -/
def visited (home : square) (tour : List rckt) : List square :=
  home :: tour.map moveDest

/-- Move element `m` records origin `a`, and its edge leads to `b`, flagged on
the board. -/
def legalMove (m : rckt) (a b : square) : Prop :=
  m.r = a.r ∧ m.c = a.c ∧ m.k < 8 ∧ dest m.r m.c m.k = some (b.r, b.c, true)

/-- The moves form a chain of legal moves from square `a` to square `b`. -/
def isPath : square → List rckt → square → Prop
  | a, [], b => a = b
  | a, m :: ms, b => ∃ mid, legalMove m a mid ∧ isPath mid ms b

/-- The candidate that iteration `k` of `findU` appends, if any. -/
def candidate (tNet : List ℚ) (tabu : List square) (r c : Int) (k : Nat) : Option rckt :=
  match dest r c k with
  | some (dr, dc, true) =>
    if (⟨dr, dc⟩ : square) ∈ tabu then none
    else (readAt tNet (edgeIndex r c k)).map fun tk => ⟨dr, dc, k, tk⟩
  | _ => none

/-- Invariant of the walk loop of the agent whose home square is `home`. -/
structure WalkInv (tNet : List ℚ) (home : square) (s : AntState) : Prop where
  tabu_eq : s.tabu = visited home s.moves
  path : isPath home s.moves ⟨s.r, s.c⟩
  nodup : s.tabu.Nodup
  weight : ∀ m ∈ s.moves, readAt tNet (edgeIndex m.r m.c m.k) = some m.t

/-- The squares of the board, row by row. -/
def allSquares : List square :=
  (List.range boardSize).flatMap fun (r : Nat) =>
    (List.range boardSize).map fun (c : Nat) => ⟨(r : Int), (c : Int)⟩

/-- State after `n` iterations of the walk loop, when none of them was the last. -/
def antAfter (tNet : List ℚ) (draws : Nat → ℚ) : Nat → AntState → Option AntState
  | 0, s => some s
  | n + 1, s =>
    match antStep tNet draws s with
    | .next s1 => antAfter tNet draws n s1
    | _ => none

/-- Squares `a` and `b` are a knight's move apart. -/
def knightApart (a b : square) : Prop :=
  (|b.r - a.r| = 1 ∧ |b.c - a.c| = 2) ∨ (|b.r - a.r| = 2 ∧ |b.c - a.c| = 1)

deriving instance DecidableEq for Except

/-- Cumulative weight of the first `n` candidates of a candidate list. -/
def cumWeight (unexp : List rckt) (n : Nat) : ℚ :=
  ((unexp.take n).map rckt.t).sum

/-- Sum of the deposits of all moves of the `nSquares` tours received in a
cycle. -/
def tourMass (tch : Nat → List rckt) : ℚ :=
  ((List.range nSquares).map fun i => ((tch i).map rckt.t).sum).sum

/-! ## A concrete run: a network on which the agent of square (0, 0) finds a complete tour -/

/-- Offset indices of an open knight's tour from square `(0, 0)`. -/
def wOffsets : List Nat :=
  [0, 3, 6, 0, 7, 0, 2, 1, 2, 4, 3, 4, 6, 1, 3, 6, 5, 6, 7, 0, 7, 2, 1, 2, 3, 6, 0, 3, 4, 3, 5, 6,
 5, 0, 1, 6, 1, 7, 5, 4, 1, 6, 1, 2, 4, 2, 5, 3, 1, 0, 5, 6, 1, 4, 5, 6, 0, 1, 4, 1, 0, 1, 4]

/-- Indices in the pheromone slice of the edges of that tour. -/
def wEdges : List Nat :=
  [0, 83, 134, 8, 95, 40, 122, 241, 378, 500, 419, 468, 390, 265, 403, 454, 333, 198, 79, 24, 111,
 58, 177, 314, 435, 486, 360, 443, 492, 411, 461, 326, 205, 64, 145, 286, 161, 303, 253, 116,
 33, 174, 49, 186, 308, 226, 349, 211, 257, 392, 477, 342, 217, 356, 277, 142, 16, 97, 236,
 153, 288, 369, 508]

/-- A pheromone network that is strong on the edges of the tour and weak elsewhere. -/
def wNet : List ℚ :=
  (List.range (nSquares * 8)).map fun i => if i ∈ wEdges then 1 else 1 / 1000

/-- A constant stream of draws. -/
def wDraws : Nat → ℚ := fun _ => 1 / 2

/-- Squares of the tour, in the order of the visit. -/
def wSquares : List square :=
  [⟨0, 0⟩, ⟨1, 2⟩, ⟨2, 0⟩, ⟨0, 1⟩, ⟨1, 3⟩, ⟨0, 5⟩, ⟨1, 7⟩, ⟨3, 6⟩, ⟨5, 7⟩, ⟨7, 6⟩, ⟨6, 4⟩, ⟨7, 2⟩,
 ⟨6, 0⟩, ⟨4, 1⟩, ⟨6, 2⟩, ⟨7, 0⟩, ⟨5, 1⟩, ⟨3, 0⟩, ⟨1, 1⟩, ⟨0, 3⟩, ⟨1, 5⟩, ⟨0, 7⟩, ⟨2, 6⟩,
 ⟨4, 7⟩, ⟨6, 6⟩, ⟨7, 4⟩, ⟨5, 5⟩, ⟨6, 7⟩, ⟨7, 5⟩, ⟨6, 3⟩, ⟨7, 1⟩, ⟨5, 0⟩, ⟨3, 1⟩, ⟨1, 0⟩,
 ⟨2, 2⟩, ⟨4, 3⟩, ⟨2, 4⟩, ⟨4, 5⟩, ⟨3, 7⟩, ⟨1, 6⟩, ⟨0, 4⟩, ⟨2, 5⟩, ⟨0, 6⟩, ⟨2, 7⟩, ⟨4, 6⟩,
 ⟨3, 4⟩, ⟨5, 3⟩, ⟨3, 2⟩, ⟨4, 0⟩, ⟨6, 1⟩, ⟨7, 3⟩, ⟨5, 2⟩, ⟨3, 3⟩, ⟨5, 4⟩, ⟨4, 2⟩, ⟨2, 1⟩,
 ⟨0, 2⟩, ⟨1, 4⟩, ⟨3, 5⟩, ⟨2, 3⟩, ⟨4, 4⟩, ⟨5, 6⟩, ⟨7, 7⟩, ⟨6, 5⟩]

/-- Moves of the tour as the walk records them: origin, offset and the deposit
that line 221 assigns. -/
def wTour : List rckt :=
  (List.zip wSquares wOffsets).map fun p => ⟨p.1.r, p.1.c, p.2, 1⟩

/-- State of the agent when it sends that tour. -/
def wFinal : AntState :=
  { r := 6, c := 5, tabu := wSquares, moves := wTour, rnd := 63 }

/-- A candidate list with three candidates, of weights 1/2, 1/4 and 1/4. -/
def wCands : List rckt :=
  [⟨1, 2, 0, 1 / 2⟩, ⟨2, 1, 1, 1 / 4⟩, ⟨2, -1, 2, 1 / 4⟩]

/-- A coordinator state at the start of a cycle. -/
def wCoord : Coord :=
  { tNet := wNet, tNew := List.replicate (nSquares * 8) 0, unique := ∅, allUnique := ∅,
    tbuf := List.replicate 65 0 }

/-! ## A second concrete run: a dead end on the freshly seeded network -/

/-- An index of the pheromone slice belongs to an edge that `dest` flags as on
the board. -/
def legalIndex (j : Nat) : Bool :=
  match dest ((j / 64 : Nat) : Int) ((j / 8 % 8 : Nat) : Int) (j % 8) with
  | some (_, _, true) => true
  | _ => false

/-- The network that seeding writes on a cleared slice: `1e-6` on the legal
edges, zero elsewhere. -/
def uNet : List ℚ :=
  (List.range (nSquares * 8)).map fun j => if legalIndex j then 1 / 1000000 else 0

/-- The stream of draws that is constantly zero. -/
def uDraws : Nat → ℚ := fun _ => 0

/-- Offset indices of the walk of the agent of square `(3, 3)` on `uNet` with
the draws `uDraws`. -/
def uOffsets : List Nat :=
  [0, 0, 2, 4, 3, 4, 6, 0, 0, 0, 5, 2, 4, 3, 5, 0, 0, 6, 0, 5, 3, 0, 6, 4, 3, 3, 2]

/-- Squares of that walk, in the order of the visit. -/
def uSquares : List square :=
  [⟨3, 3⟩, ⟨4, 5⟩, ⟨5, 7⟩, ⟨7, 6⟩, ⟨6, 4⟩, ⟨7, 2⟩, ⟨6, 0⟩, ⟨4, 1⟩, ⟨5, 3⟩, ⟨6, 5⟩, ⟨7, 7⟩,
   ⟨5, 6⟩, ⟨7, 5⟩, ⟨6, 3⟩, ⟨7, 1⟩, ⟨5, 0⟩, ⟨6, 2⟩, ⟨7, 4⟩, ⟨5, 5⟩, ⟨6, 7⟩, ⟨4, 6⟩, ⟨5, 4⟩,
   ⟨6, 6⟩, ⟨4, 7⟩, ⟨3, 5⟩, ⟨4, 3⟩, ⟨5, 1⟩, ⟨7, 0⟩]

/-- The tour that the agent returns for that walk: 27 moves, a dead end. -/
def uTour : List rckt :=
  (List.zip (List.range 27) (List.zip uSquares uOffsets)).map fun p =>
    ⟨p.2.1.r, p.2.1.c, p.2.2, ((27 - p.1 : Nat) : ℚ) / ((63 - p.1 : Nat) : ℚ)⟩

/-- The coordinator state after the first seeding. -/
def uSeeded : Coord :=
  { coordInit with unique := ∅, tNet := uNet }

/-- The coordinator state after the first seeding and the evaporation of the
first cycle. -/
def uCoord : Coord :=
  { uSeeded with tNet := evaporate uSeeded.tNet }

/-- A second constant stream of draws. -/
def wDraws2 : Nat → ℚ := fun _ => 1 / 4

/-! ## Notions used to state the properties of the coordinator -/

/-- Edge `k` of square `(r, c)` is legal: `dest` flags its destination as on
the board. -/
def flagged (r c : Int) (k : Nat) : Prop :=
  ∃ r1 c1, dest r c k = some (r1, c1, true)

/-- The tour is one that an agent with home on the board returns on the
network `tNet`. -/
def AntTour (tNet : List ℚ) (tour : List rckt) : Prop :=
  ∃ (draws : Nat → ℚ) (fuel : Nat) (r c : Int), onBoard r c ∧ ant tNet draws fuel r c = .ok tour

/-- States that the operations of the coordinator reach from the initial
allocation: seeding, evaporation, gathering the tour of an agent that walked on
the current network, and the merge.  The flag tells whether a seeding has
happened. -/
inductive Reachable : Bool → Coord → Prop where
  | init : Reachable false coordInit
  | seed {b : Bool} {st : Coord} {tNet1 : List ℚ} :
      Reachable b st → seed st.tNet = some tNet1 →
      Reachable true { st with unique := ∅, tNet := tNet1 }
  | evaporate {b : Bool} {st : Coord} :
      Reachable b st → Reachable b { st with tNet := evaporate st.tNet }
  | gather {b : Bool} {st st1 : Coord} {tour : List rckt} :
      Reachable b st → AntTour st.tNet tour → gatherTour st tour = .ok st1 → Reachable b st1
  | merge {b : Bool} {st : Coord} {p : List ℚ × List ℚ} :
      Reachable b st → mergeLoop st.tNet st.tNew = some p →
      Reachable b { st with tNet := p.1, tNew := p.2 }

/-- Union of the per-repeat key sets of a list of end-of-repeat states. -/
def unionUnique (trace : List Coord) : Finset (List Nat) :=
  trace.foldr (fun st acc => st.unique ∪ acc) ∅

/-- Slice `ys` is slice `xs` with the value `v` written at the indices that
satisfy `P`, and nothing else changed. -/
def Patched (P : Int → Prop) (v : ℚ) (xs ys : List ℚ) : Prop :=
  ys.length = xs.length ∧
    ∀ j : Int, (P j → readAt ys j = some v) ∧ (¬ P j → readAt ys j = readAt xs j)

/-- Network with a strictly positive entry on every legal edge. -/
def LegalPositive (net : List ℚ) : Prop :=
  ∀ r c k, onBoard r c → flagged r c k → ∃ x, readAt net (edgeIndex r c k) = some x ∧ 0 < x

/-- Slice with entry zero on every edge of a board square that is not legal. -/
def IllegalZero (net : List ℚ) : Prop :=
  ∀ r c k, onBoard r c → k < 8 → ¬ flagged r c k → readAt net (edgeIndex r c k) = some 0

/-- Invariant of the states that the coordinator reaches; `b` tells whether a
seeding has happened. -/
structure CoordInv (b : Bool) (st : Coord) : Prop where
  netLen : st.tNet.length = nSquares * 8
  newLen : st.tNew.length = nSquares * 8
  netNonneg : ∀ x ∈ st.tNet, 0 ≤ x
  newNonneg : ∀ x ∈ st.tNew, 0 ≤ x
  netIllegal : IllegalZero st.tNet
  newIllegal : IllegalZero st.tNew
  netLegal : b = true → LegalPositive st.tNet

/-! ## The move table -/

theorem drc_length : drc.length = 8 := rfl

theorem dest_eq (r c : Int) (k : Nat) (hk : k < 8) :
    ∃ d, drc.get? k = some d ∧
      dest r c k = some (r + d.1, c + d.2, decide (onBoard (r + d.1) (c + d.2))) := by
  have h : k < drc.length := by rw [drc_length]; exact hk
  refine ⟨drc.get ⟨k, h⟩, List.get?_eq_get h, ?_⟩
  simp only [dest, List.get?_eq_get h, onBoard]
  congr 3
  simp only [ge_iff_le, Bool.decide_and, Bool.and_assoc]

theorem dest_none (r c : Int) (k : Nat) (hk : 8 ≤ k) : dest r c k = none := by
  have h : drc.get? k = none := List.get?_eq_none.mpr (by rw [drc_length]; exact hk)
  simp only [dest, h]

theorem dest_some_lt {r c : Int} {k : Nat} {x : Int × Int × Bool} (h : dest r c k = some x) :
    k < 8 := by
  by_contra hk
  rw [dest_none r c k (by omega)] at h
  exact Option.noConfusion h

/-- Offsets of the move table are knight steps and determine the index. -/
theorem drc_cases (k : Nat) (d : Int × Int) (h : drc.get? k = some d) :
    (k = 0 ∧ d = (1, 2)) ∨ (k = 1 ∧ d = (2, 1)) ∨ (k = 2 ∧ d = (2, -1)) ∨ (k = 3 ∧ d = (1, -2)) ∨
    (k = 4 ∧ d = (-1, -2)) ∨ (k = 5 ∧ d = (-2, -1)) ∨ (k = 6 ∧ d = (-2, 1)) ∨
    (k = 7 ∧ d = (-1, 2)) := by
  have hk : k < 8 := by
    by_contra hk
    rw [List.get?_eq_none.mpr (by rw [drc_length]; omega)] at h
    exact Option.noConfusion h
  interval_cases k <;> simp [drc] at h <;> simp [← h]

theorem dest_flag_inj (r c : Int) (k1 k2 : Nat) (r1 c1 : Int)
    (h1 : dest r c k1 = some (r1, c1, true)) (h2 : dest r c k2 = some (r1, c1, true)) :
    k1 = k2 := by
  obtain ⟨d1, hd1, e1⟩ := dest_eq r c k1 (dest_some_lt h1)
  obtain ⟨d2, hd2, e2⟩ := dest_eq r c k2 (dest_some_lt h2)
  rw [e1] at h1; rw [e2] at h2
  simp only [Option.some.injEq, Prod.mk.injEq] at h1 h2
  have hr : d1.1 = d2.1 := by omega
  have hc : d1.2 = d2.2 := by omega
  rcases drc_cases k1 d1 hd1 with h | h | h | h | h | h | h | h <;>
  rcases drc_cases k2 d2 hd2 with g | g | g | g | g | g | g | g <;>
  obtain ⟨hk1, hd1⟩ := h <;> obtain ⟨hk2, hd2⟩ := g <;>
  subst hd1 <;> subst hd2 <;> simp at hr hc <;> omega

theorem dest_flag_iff (r c r1 c1 : Int) :
    (∃ k, k < 8 ∧ dest r c k = some (r1, c1, true)) ↔
      onBoard r1 c1 ∧ ((|r1 - r| = 1 ∧ |c1 - c| = 2) ∨ (|r1 - r| = 2 ∧ |c1 - c| = 1)) := by
  constructor
  · rintro ⟨k, hk, h⟩
    obtain ⟨d, hd, e⟩ := dest_eq r c k hk
    rw [e] at h
    simp only [Option.some.injEq, Prod.mk.injEq, decide_eq_true_eq] at h
    obtain ⟨hr, hc, hb⟩ := h
    subst hr; subst hc
    refine ⟨hb, ?_⟩
    rcases drc_cases k d hd with h | h | h | h | h | h | h | h <;>
    obtain ⟨_, hd⟩ := h <;> subst hd <;> simp
  · rintro ⟨hb, hmv⟩
    have key : ∀ k d, k < 8 → drc.get? k = some d → r1 = r + d.1 → c1 = c + d.2 →
        ∃ k, k < 8 ∧ dest r c k = some (r1, c1, true) := by
      intro k d hk hd hr hc
      obtain ⟨d1, hd1, e⟩ := dest_eq r c k hk
      rw [hd] at hd1
      cases hd1
      refine ⟨k, hk, ?_⟩
      rw [e, ← hr, ← hc]
      simp [hb]
    rcases hmv with ⟨h1, h2⟩ | ⟨h1, h2⟩
    · rcases (abs_eq (by norm_num)).mp h1 with a | a <;>
      rcases (abs_eq (by norm_num)).mp h2 with b | b
      · exact key 0 (1, 2) (by norm_num) rfl (by simp; omega) (by simp; omega)
      · exact key 3 (1, -2) (by norm_num) rfl (by simp; omega) (by simp; omega)
      · exact key 7 (-1, 2) (by norm_num) rfl (by simp; omega) (by simp; omega)
      · exact key 4 (-1, -2) (by norm_num) rfl (by simp; omega) (by simp; omega)
    · rcases (abs_eq (by norm_num)).mp h1 with a | a <;>
      rcases (abs_eq (by norm_num)).mp h2 with b | b
      · exact key 1 (2, 1) (by norm_num) rfl (by simp; omega) (by simp; omega)
      · exact key 2 (2, -1) (by norm_num) rfl (by simp; omega) (by simp; omega)
      · exact key 6 (-2, 1) (by norm_num) rfl (by simp; omega) (by simp; omega)
      · exact key 5 (-2, -1) (by norm_num) rfl (by simp; omega) (by simp; omega)

theorem mem_flaggedDests (r c r1 c1 : Int) :
    (r1, c1) ∈ flaggedDests r c ↔ ∃ k, k < 8 ∧ dest r c k = some (r1, c1, true) := by
  simp only [flaggedDests, List.mem_filterMap, List.mem_range]
  constructor
  · rintro ⟨k, hk, h⟩
    refine ⟨k, hk, ?_⟩
    split at h
    · next a b heq => simp only [Option.some.injEq, Prod.mk.injEq] at h; rw [heq, h.1, h.2]
    · exact Option.noConfusion h
  · rintro ⟨k, hk, h⟩
    exact ⟨k, hk, by rw [h]⟩

theorem flaggedDests_nodup (r c : Int) : (flaggedDests r c).Nodup := by
  unfold flaggedDests
  refine List.Nodup.filterMap ?_ (List.nodup_range 8)
  intro k1 k2 b h1 h2
  simp only [Option.mem_def] at h1 h2
  split at h1
  · next a1 b1 e1 =>
    split at h2
    · next a2 b2 e2 =>
      cases h1; cases h2
      exact dest_flag_inj r c k1 k2 _ _ e1 e2
    · exact Option.noConfusion h2
  · exact Option.noConfusion h1

theorem flaggedDests_length (r c : Int) : (flaggedDests r c).length ≤ 8 := by
  unfold flaggedDests
  exact (List.length_filterMap_le _ _).trans (by simp)

/-- C8. For every square `(r, c)` and offset index `k < 8`, `dest r c k` is the
square `(r + drc[k][0], c + drc[k][1])` with a flag that is true exactly when
that square is on the board; the flagged destinations over `k = 0..7` are
pairwise distinct, at most 8, and are exactly the on-board squares at knight
distance `{1, 2}` from `(r, c)`. -/
theorem dest_enumerates_knight_moves (r c : Int) :
    (∀ k, k < 8 → ∃ d, drc.get? k = some d ∧ ∃ ok,
        dest r c k = some (r + d.1, c + d.2, ok) ∧ (ok = true ↔ onBoard (r + d.1) (c + d.2))) ∧
    (∀ k1 k2 r1 c1, dest r c k1 = some (r1, c1, true) → dest r c k2 = some (r1, c1, true) →
        k1 = k2) ∧
    (flaggedDests r c).Nodup ∧ (flaggedDests r c).length ≤ 8 ∧
    (∀ r1 c1, (r1, c1) ∈ flaggedDests r c ↔ ∃ k, k < 8 ∧ dest r c k = some (r1, c1, true)) ∧
    (∀ r1 c1, (r1, c1) ∈ flaggedDests r c ↔
        onBoard r1 c1 ∧ ((|r1 - r| = 1 ∧ |c1 - c| = 2) ∨ (|r1 - r| = 2 ∧ |c1 - c| = 1))) := by
  refine ⟨?_, ?_, flaggedDests_nodup r c, flaggedDests_length r c, mem_flaggedDests r c, ?_⟩
  · intro k hk
    obtain ⟨d, hd, e⟩ := dest_eq r c k hk
    exact ⟨d, hd, _, e, by simp⟩
  · intro k1 k2 r1 c1 h1 h2
    exact dest_flag_inj r c k1 k2 r1 c1 h1 h2
  · intro r1 c1
    rw [mem_flaggedDests, dest_flag_iff]


theorem dest_enumerates_knight_moves_witness :
    flaggedDests 0 0 = [(1, 2), (2, 1)] ∧ dest 0 0 0 = some (1, 2, true) ∧
    dest 0 0 2 = some (2, -1, false) ∧
    ((∀ k, k < 8 → ∃ d, drc.get? k = some d ∧ ∃ ok,
        dest 0 0 k = some (0 + d.1, 0 + d.2, ok) ∧ (ok = true ↔ onBoard (0 + d.1) (0 + d.2))) ∧
    (∀ k1 k2 r1 c1, dest 0 0 k1 = some (r1, c1, true) → dest 0 0 k2 = some (r1, c1, true) →
        k1 = k2) ∧
    (flaggedDests 0 0).Nodup ∧ (flaggedDests 0 0).length ≤ 8 ∧
    (∀ r1 c1, (r1, c1) ∈ flaggedDests 0 0 ↔ ∃ k, k < 8 ∧ dest 0 0 k = some (r1, c1, true)) ∧
    (∀ r1 c1, (r1, c1) ∈ flaggedDests 0 0 ↔
        onBoard r1 c1 ∧ ((|r1 - 0| = 1 ∧ |c1 - 0| = 2) ∨ (|r1 - 0| = 2 ∧ |c1 - 0| = 1)))) :=
  ⟨by decide, by decide, by decide, dest_enumerates_knight_moves 0 0⟩

/-! ## The candidate loop -/

theorem tabu_any_iff (tabu : List square) (dr dc : Int) :
    tabu.any (fun t => decide (t.r = dr) && decide (t.c = dc)) = true ↔
      (⟨dr, dc⟩ : square) ∈ tabu := by
  simp only [List.any_eq_true, Bool.and_eq_true, decide_eq_true_eq]
  constructor
  · rintro ⟨t, ht, h1, h2⟩
    cases t
    simp only at h1 h2
    subst h1; subst h2
    exact ht
  · intro h
    exact ⟨_, h, rfl, rfl⟩

/-- What `findU` returns when it does not fault: the candidates of the
remaining offsets appended in order, and their weights added to the total. -/
theorem findU_ok (tNet : List ℚ) (tabu : List square) (r c : Int) :
    ∀ (ks : List Nat) (unexp : List rckt) (tSum : ℚ) (res : List rckt × ℚ),
      findU tNet tabu r c ks unexp tSum = .ok res →
        res.1 = unexp ++ ks.filterMap (candidate tNet tabu r c) ∧
        res.2 = tSum + ((ks.filterMap (candidate tNet tabu r c)).map rckt.t).sum := by
  intro ks
  induction ks with
  | nil =>
    intro unexp tSum res h
    simp only [findU, Except.ok.injEq] at h
    subst h
    simp
  | cons k ks ih =>
    intro unexp tSum res h
    unfold findU at h
    split at h
    · exact Except.noConfusion h
    · next dr dc ok hd =>
      cases ok with
      | false =>
        simp only [Bool.not_false, ↓reduceIte] at h
        have hc : candidate tNet tabu r c k = none := by simp [candidate, hd]
        simpa [List.filterMap_cons, hc] using ih unexp tSum res h
      | true =>
        simp only [Bool.not_true, Bool.false_eq_true, ↓reduceIte] at h
        by_cases hm : (⟨dr, dc⟩ : square) ∈ tabu
        · rw [if_pos ((tabu_any_iff tabu dr dc).mpr hm)] at h
          have hc : candidate tNet tabu r c k = none := by simp [candidate, hd, hm]
          simpa [List.filterMap_cons, hc] using ih unexp tSum res h
        · rw [if_neg (fun hk => hm ((tabu_any_iff tabu dr dc).mp hk))] at h
          split at h
          · exact Except.noConfusion h
          · next tk hr =>
            have hc : candidate tNet tabu r c k = some ⟨dr, dc, k, tk⟩ := by
              simp [candidate, hd, hm, hr]
            obtain ⟨h1, h2⟩ := ih _ _ res h
            refine ⟨?_, ?_⟩
            · rw [h1, List.filterMap_cons, hc]; simp
            · rw [h2, List.filterMap_cons, hc]; simp [add_assoc]

theorem candidate_some {tNet : List ℚ} {tabu : List square} {r c : Int} {k : Nat} {m : rckt}
    (h : candidate tNet tabu r c k = some m) :
    m.k = k ∧ dest r c k = some (m.r, m.c, true) ∧ (⟨m.r, m.c⟩ : square) ∉ tabu ∧
      readAt tNet (edgeIndex r c k) = some m.t := by
  unfold candidate at h
  split at h
  · next dr dc hd =>
    split at h
    · exact Option.noConfusion h
    · next hm =>
      cases hr : readAt tNet (edgeIndex r c k) with
      | none => rw [hr] at h; exact Option.noConfusion h
      | some tk =>
        rw [hr] at h
        simp only [Option.map_some', Option.some.injEq] at h
        subst h
        exact ⟨rfl, hd, hm, rfl⟩
  · exact Option.noConfusion h

/-! ## The walk of the agent -/

theorem pick_mem (rn : ℚ) (d : rckt) (unexp : List rckt) (h : unexp ≠ []) :
    pick rn d unexp ∈ unexp := by
  induction unexp generalizing rn d with
  | nil => exact absurd rfl h
  | cons m ms ih =>
    unfold pick
    split
    · exact List.mem_cons_self m ms
    · cases ms with
      | nil => simp [pick]
      | cons n ns => exact List.mem_cons_of_mem m (ih (rn - m.t) m (List.cons_ne_nil n ns))

/-- One iteration that goes on: the chosen move is a candidate of the current
square, and the new state is the old one extended by it. -/
theorem antStep_next {tNet : List ℚ} {draws : Nat → ℚ} {s s1 : AntState}
    (h : antStep tNet draws s = .next s1) :
    ∃ m k, k < 8 ∧ candidate tNet s.tabu s.r s.c k = some m ∧
      s1 = { r := m.r, c := m.c, tabu := s.tabu ++ [⟨m.r, m.c⟩],
             moves := s.moves ++ [{ m with r := s.r, c := s.c }], rnd := s.rnd + 1 } := by
  unfold antStep at h
  split at h
  · exact Step.noConfusion h
  · next unexp tSum hf =>
    split at h
    · exact Step.noConfusion h
    · next hne =>
      obtain ⟨h1, _⟩ := findU_ok tNet s.tabu s.r s.c _ _ _ _ hf
      simp only [List.nil_append] at h1
      have hn : unexp ≠ [] := fun e => hne (by rw [e]; rfl)
      have hm := pick_mem (draws s.rnd * tSum) default unexp hn
      rw [h1, List.mem_filterMap] at hm
      obtain ⟨k, hk, hc⟩ := hm
      refine ⟨_, k, List.mem_range.mp hk, hc, ?_⟩
      simp only [Step.next.injEq] at h
      rw [← h, h1]

theorem isPath_snoc {a b c : square} {ms : List rckt} {m : rckt}
    (hp : isPath a ms b) (hm : legalMove m b c) : isPath a (ms ++ [m]) c := by
  induction ms generalizing a with
  | nil =>
    simp only [isPath] at hp
    subst hp
    exact ⟨c, hm, rfl⟩
  | cons n ns ih =>
    obtain ⟨mid, h1, h2⟩ := hp
    exact ⟨mid, h1, ih h2⟩

theorem moveDest_of_legal {m : rckt} {a b : square} (h : legalMove m a b) : moveDest m = b := by
  obtain ⟨_, _, _, hd⟩ := h
  simp only [moveDest, hd]

theorem visited_snoc (home : square) (ms : List rckt) (m : rckt) :
    visited home (ms ++ [m]) = visited home ms ++ [moveDest m] := by
  simp [visited]

theorem walkInv_init (tNet : List ℚ) (r c : Int) (n : Nat) :
    WalkInv tNet ⟨r, c⟩ (antInit r c n) where
  tabu_eq := rfl
  path := rfl
  nodup := List.nodup_singleton _
  weight := fun m hm => absurd hm (List.not_mem_nil m)

theorem walkInv_step {tNet : List ℚ} {draws : Nat → ℚ} {home : square} {s s1 : AntState}
    (hi : WalkInv tNet home s) (h : antStep tNet draws s = .next s1) :
    WalkInv tNet home s1 := by
  obtain ⟨m, k, hk, hc, rfl⟩ := antStep_next h
  obtain ⟨hmk, hd, hnot, hw⟩ := candidate_some hc
  have hl : legalMove { m with r := s.r, c := s.c } ⟨s.r, s.c⟩ ⟨m.r, m.c⟩ :=
    ⟨rfl, rfl, by simpa [hmk] using hk, by simpa [hmk] using hd⟩
  refine ⟨?_, ?_, ?_, ?_⟩
  · simp only [visited_snoc, moveDest_of_legal hl, hi.tabu_eq]
  · exact isPath_snoc hi.path hl
  · refine List.nodup_append.mpr ⟨hi.nodup, List.nodup_singleton _, ?_⟩
    intro x hx hx1
    rw [List.mem_singleton] at hx1
    subst hx1
    exact hnot hx
  · intro x hx
    rcases List.mem_append.mp hx with hx | hx
    · exact hi.weight x hx
    · rw [List.mem_singleton] at hx
      subst hx
      simpa [hmk] using hw

theorem walkInv_loop {tNet : List ℚ} {draws : Nat → ℚ} {home : square} :
    ∀ (fuel : Nat) (s s1 : AntState), WalkInv tNet home s →
      antLoop tNet draws fuel s = .ok s1 → WalkInv tNet home s1 := by
  intro fuel
  induction fuel with
  | zero => intro s s1 _ h; exact Except.noConfusion h
  | succ n ih =>
    intro s s1 hi h
    unfold antLoop at h
    split at h
    · simp only [Except.ok.injEq] at h
      subst h
      exact hi
    · exact Except.noConfusion h
    · next s2 hs => exact ih s2 s1 (walkInv_step hi hs) h

/-! ## The board bounds the walk -/

theorem mem_allSquares (sq : square) : sq ∈ allSquares ↔ onBoard sq.r sq.c := by
  cases sq with
  | mk r c =>
    simp only [allSquares, List.mem_flatMap, List.mem_map, List.mem_range, onBoard, boardSize]
    constructor
    · rintro ⟨a, ha, b, hb, h⟩
      simp only [square.mk.injEq] at h
      omega
    · rintro ⟨h1, h2, h3, h4⟩
      refine ⟨r.toNat, by omega, c.toNat, by omega, ?_⟩
      simp only [square.mk.injEq]
      omega

theorem allSquares_length : allSquares.length = nSquares := by decide

theorem allSquares_nodup : allSquares.Nodup := by decide

/-- A duplicate-free list of board squares has at most `nSquares` elements, and
with exactly `nSquares` elements it holds every square of the board. -/
theorem nodup_board_bound (l : List square) (hn : l.Nodup)
    (hb : ∀ sq ∈ l, onBoard sq.r sq.c) :
    l.length ≤ nSquares ∧ (l.length = nSquares → l.Perm allSquares) := by
  have hsub : l.Subperm allSquares :=
    List.subperm_of_subset hn (fun sq h => (mem_allSquares sq).mpr (hb sq h))
  refine ⟨?_, ?_⟩
  · rw [← allSquares_length]
    exact hsub.length_le
  · intro hl
    exact hsub.perm_of_length_le (by rw [allSquares_length, hl])

theorem legalMove_onBoard {m : rckt} {a b : square} (h : legalMove m a b) :
    onBoard b.r b.c := by
  obtain ⟨_, _, hk, hd⟩ := h
  obtain ⟨d, _, e⟩ := dest_eq m.r m.c m.k hk
  rw [e] at hd
  simp only [Option.some.injEq, Prod.mk.injEq, decide_eq_true_eq] at hd
  obtain ⟨h1, h2, h3⟩ := hd
  rw [← h1, ← h2]
  exact h3

theorem isPath_onBoard {a b : square} {ms : List rckt} (ha : onBoard a.r a.c)
    (hp : isPath a ms b) :
    onBoard b.r b.c ∧ ∀ sq ∈ visited a ms, onBoard sq.r sq.c := by
  induction ms generalizing a with
  | nil =>
    simp only [isPath] at hp
    subst hp
    exact ⟨ha, by simp [visited, ha]⟩
  | cons m ms ih =>
    obtain ⟨mid, h1, h2⟩ := hp
    obtain ⟨hb, hv⟩ := ih (legalMove_onBoard h1) h2
    refine ⟨hb, ?_⟩
    intro sq hsq
    simp only [visited, List.map_cons, List.mem_cons] at hsq
    rcases hsq with hsq | hsq | hsq
    · rw [hsq]; exact ha
    · rw [hsq, moveDest_of_legal h1]; exact legalMove_onBoard h1
    · apply hv
      simp only [visited, List.mem_cons]
      exact Or.inr hsq

theorem walkInv_bound {tNet : List ℚ} (home : square) {s : AntState}
    (hb : onBoard home.r home.c) (hi : WalkInv tNet home s) :
    onBoard s.r s.c ∧ s.tabu.length ≤ nSquares ∧ s.tabu.length = s.moves.length + 1 ∧
      (s.tabu.length = nSquares → s.tabu.Perm allSquares) := by
  obtain ⟨h1, h2⟩ := isPath_onBoard hb hi.path
  have h3 := nodup_board_bound s.tabu hi.nodup (by rw [hi.tabu_eq]; exact h2)
  refine ⟨h1, h3.1, ?_, h3.2⟩
  rw [hi.tabu_eq]
  simp [visited]

/-! ## Absence of faults and termination -/

theorem readAt_some (xs : List ℚ) (i : Int) (h0 : 0 ≤ i) (h1 : i < (xs.length : Int)) :
    ∃ x, readAt xs i = some x := by
  have hlt : i.toNat < xs.length := by omega
  exact ⟨xs.get ⟨i.toNat, hlt⟩, by
    simp only [readAt, if_neg (not_lt.mpr h0)]
    exact List.get?_eq_get hlt⟩

theorem findU_no_fault (tNet : List ℚ) (tabu : List square) (r c : Int)
    (hnet : tNet.length = nSquares * 8) (hb : onBoard r c) :
    ∀ (ks : List Nat) (unexp : List rckt) (tSum : ℚ), (∀ k ∈ ks, k < 8) →
      ∃ res, findU tNet tabu r c ks unexp tSum = .ok res := by
  intro ks
  induction ks with
  | nil => intro unexp tSum _; exact ⟨_, rfl⟩
  | cons k ks ih =>
    intro unexp tSum hks
    have hk : k < 8 := hks k (List.mem_cons_self k ks)
    have hks1 : ∀ j ∈ ks, j < 8 := fun j hj => hks j (List.mem_cons_of_mem k hj)
    obtain ⟨d, _, e⟩ := dest_eq r c k hk
    obtain ⟨x, hx⟩ := readAt_some tNet (edgeIndex r c k)
      (by simp only [edgeIndex, onBoard, boardSize] at hb ⊢; omega)
      (by simp only [edgeIndex, onBoard, boardSize, hnet, nSquares] at hb ⊢; omega)
    unfold findU
    rw [e]
    simp only [hx]
    split
    · exact ih _ _ hks1
    · split
      · exact ih _ _ hks1
      · exact ih _ _ hks1

theorem antStep_no_fault {tNet : List ℚ} (draws : Nat → ℚ) {s : AntState}
    (hnet : tNet.length = nSquares * 8) (hb : onBoard s.r s.c) :
    antStep tNet draws s ≠ .fault := by
  obtain ⟨res, hres⟩ := findU_no_fault tNet s.tabu s.r s.c hnet hb (List.range 8) [] 0
    (fun k hk => List.mem_range.mp hk)
  unfold antStep
  rw [hres]
  simp only
  split
  · exact fun h => Step.noConfusion h
  · exact fun h => Step.noConfusion h

theorem antStep_next_tabu {tNet : List ℚ} {draws : Nat → ℚ} {s s1 : AntState}
    (h : antStep tNet draws s = .next s1) : s1.tabu.length = s.tabu.length + 1 := by
  obtain ⟨m, k, _, _, rfl⟩ := antStep_next h
  simp

/-- With more fuel than there are squares left to visit the loop ends. -/
theorem antLoop_terminates {tNet : List ℚ} (draws : Nat → ℚ) (home : square)
    (hnet : tNet.length = nSquares * 8) (hb : onBoard home.r home.c) :
    ∀ (fuel : Nat) (s : AntState), WalkInv tNet home s → nSquares - s.tabu.length < fuel →
      ∃ s1, antLoop tNet draws fuel s = .ok s1 := by
  intro fuel
  induction fuel with
  | zero => intro s _ h; exact absurd h (Nat.not_lt_zero _)
  | succ n ih =>
    intro s hi hf
    unfold antLoop
    cases hs : antStep tNet draws s with
    | stop => exact ⟨s, rfl⟩
    | fault => exact absurd hs (antStep_no_fault draws hnet (walkInv_bound home hb hi).1)
    | next s2 =>
      have hi2 := walkInv_step hi hs
      have hl := antStep_next_tabu hs
      have hle := (walkInv_bound home hb hi2).2.1
      exact ih s2 hi2 (by omega)

theorem antLoop_fuel_mono {tNet : List ℚ} {draws : Nat → ℚ} :
    ∀ (fuel : Nat) (s s1 : AntState), antLoop tNet draws fuel s = .ok s1 →
      ∀ fuel1, fuel ≤ fuel1 → antLoop tNet draws fuel1 s = .ok s1 := by
  intro fuel
  induction fuel with
  | zero => intro s s1 h; exact Except.noConfusion h
  | succ n ih =>
    intro s s1 h fuel1 hle
    obtain ⟨m, rfl⟩ : ∃ m, fuel1 = m + 1 := ⟨fuel1 - 1, by omega⟩
    unfold antLoop at h ⊢
    cases hs : antStep tNet draws s with
    | stop => rw [hs] at h; exact h
    | fault => rw [hs] at h; exact Except.noConfusion h
    | next s2 =>
      rw [hs] at h
      exact ih s2 s1 h m (by omega)

/-! ## Deposits and the shape of the returned tour -/

theorem depositFrom_length (len : Nat) (ms : List rckt) :
    ∀ i, (depositFrom len i ms).length = ms.length := by
  induction ms with
  | nil => intro i; rfl
  | cons m ms ih => intro i; simp [depositFrom, ih]

theorem depositFrom_get (len : Nat) (ms : List rckt) :
    ∀ i j : Nat, (depositFrom len i ms)[j]? =
      ms[j]?.map fun (m : rckt) => { m with t := depositValue len (i + j) } := by
  induction ms with
  | nil => intro i j; simp [depositFrom]
  | cons m ms ih =>
    intro i j
    cases j with
    | zero => simp [depositFrom]
    | succ j =>
      simp only [depositFrom, List.getElem?_cons_succ, ih]
      congr 2
      funext x
      congr 2
      omega

theorem moveDest_congr (m : rckt) (t : ℚ) : moveDest { m with t := t } = moveDest m := rfl

theorem depositFrom_map_dest (len : Nat) (ms : List rckt) :
    ∀ i, (depositFrom len i ms).map moveDest = ms.map moveDest := by
  induction ms with
  | nil => intro i; rfl
  | cons m ms ih => intro i; simp [depositFrom, ih, moveDest_congr]

theorem visited_deposit (home : square) (ms : List rckt) :
    visited home (deposit ms) = visited home ms := by
  simp [visited, deposit, depositFrom_map_dest]

theorem isPath_depositFrom (len : Nat) (ms : List rckt) :
    ∀ i a b, isPath a ms b → isPath a (depositFrom len i ms) b := by
  induction ms with
  | nil => intro i a b h; exact h
  | cons m ms ih =>
    intro i a b h
    obtain ⟨mid, h1, h2⟩ := h
    exact ⟨mid, h1, ih (i + 1) mid b h2⟩

theorem isPath_head {a b : square} {ms : List rckt} {n : rckt} (hp : isPath a ms b)
    (hn : ms[0]? = some n) : n.r = a.r ∧ n.c = a.c := by
  cases ms with
  | nil => simp at hn
  | cons m ms =>
    simp only [List.getElem?_cons_zero, Option.some.injEq] at hn
    subst hn
    obtain ⟨mid, h1, _⟩ := hp
    exact ⟨h1.1, h1.2.1⟩

/-- Index form of a chain of legal moves: move `i` starts on the `i`-th visited
square and leads to the next one, which is the origin of move `i + 1` or, after
the last move, the end of the chain. -/
theorem isPath_index (ms : List rckt) :
    ∀ (a b : square) (i : Nat) (m : rckt), isPath a ms b → ms[i]? = some m →
      (visited a ms)[i]? = some ⟨m.r, m.c⟩ ∧ (i = 0 → m.r = a.r ∧ m.c = a.c) ∧ m.k < 8 ∧
      ∃ r1 c1, dest m.r m.c m.k = some (r1, c1, true) ∧
        (∀ n, ms[i + 1]? = some n → n.r = r1 ∧ n.c = c1) ∧
        (i + 1 = ms.length → b.r = r1 ∧ b.c = c1) ∧
        (visited a ms)[i + 1]? = some ⟨r1, c1⟩ := by
  induction ms with
  | nil => intro a b i m _ h; simp at h
  | cons m0 ms ih =>
    intro a b i m hp hm
    obtain ⟨mid, h1, h2⟩ := hp
    have hmid := moveDest_of_legal h1
    cases i with
    | zero =>
      simp only [List.getElem?_cons_zero, Option.some.injEq] at hm
      subst hm
      obtain ⟨hr, hc, hk, hd⟩ := h1
      refine ⟨?_, fun _ => ⟨hr, hc⟩, hk, mid.r, mid.c, hd, ?_, ?_, ?_⟩
      · simp [visited, hr, hc]
      · intro n hn
        simp only [zero_add, List.getElem?_cons_succ] at hn
        exact isPath_head h2 hn
      · intro hl
        have : ms = [] := by
          cases ms with
          | nil => rfl
          | cons x xs => simp at hl
        subst this
        simp only [isPath] at h2
        rw [← h2]
        exact ⟨rfl, rfl⟩
      · simp [visited, hmid]
    | succ j =>
      simp only [List.getElem?_cons_succ] at hm
      obtain ⟨g1, _, g3, r1, c1, g4, g5, g6, g7⟩ := ih mid b j m h2 hm
      have hv : ∀ n, (visited a (m0 :: ms))[n + 1]? = (visited mid ms)[n]? := by
        intro n
        cases n with
        | zero => simp [visited, hmid]
        | succ n => simp [visited]
      refine ⟨?_, fun h => absurd h (Nat.succ_ne_zero j), g3, r1, c1, g4, ?_, ?_, ?_⟩
      · rw [hv]; exact g1
      · intro n hn
        simp only [List.getElem?_cons_succ] at hn
        exact g5 n hn
      · intro hl
        simp only [List.length_cons, add_left_inj] at hl
        exact g6 hl
      · rw [hv]; exact g7

theorem antAfter_inv {tNet : List ℚ} {draws : Nat → ℚ} {home : square} :
    ∀ (n : Nat) (s s1 : AntState), WalkInv tNet home s →
      antAfter tNet draws n s = some s1 → WalkInv tNet home s1 := by
  intro n
  induction n with
  | zero =>
    intro s s1 hi h
    simp only [antAfter, Option.some.injEq] at h
    subst h
    exact hi
  | succ n ih =>
    intro s s1 hi h
    unfold antAfter at h
    split at h
    · next s2 hs => exact ih s2 s1 (walkInv_step hi hs) h
    · exact Option.noConfusion h

/-- For a network of full size and a home square on the board, the cycle of the
agent ends without fault for every fuel of at least `nSquares`, in a state that
does not depend on the fuel. -/
theorem antCycle_returns {tNet : List ℚ} (draws : Nat → ℚ) {r c : Int}
    (hnet : tNet.length = nSquares * 8) (hb : onBoard r c) :
    ∃ s0, WalkInv tNet ⟨r, c⟩ s0 ∧ antStep tNet draws s0 = .stop ∧
      ∀ fuel, nSquares ≤ fuel →
        antLoop tNet draws fuel (antInit r c 0) = .ok s0 ∧
        antCycle tNet draws fuel r c = .ok { s0 with moves := deposit s0.moves } ∧
        ant tNet draws fuel r c = .ok (deposit s0.moves) := by
  have hi := walkInv_init tNet r c 0
  obtain ⟨s0, hs0⟩ := antLoop_terminates draws ⟨r, c⟩ hnet hb nSquares
    (antInit r c 0) hi (by simp [antInit, nSquares, boardSize])
  have hstop : ∀ (fuel : Nat) (s : AntState),
      antLoop tNet draws fuel s = .ok s0 → antStep tNet draws s0 = .stop := by
    intro fuel
    induction fuel with
    | zero => intro s h; exact Except.noConfusion h
    | succ n ih =>
      intro s h
      unfold antLoop at h
      split at h
      · next hs =>
        simp only [Except.ok.injEq] at h
        rw [← h]; exact hs
      · exact Except.noConfusion h
      · next s2 _ => exact ih s2 h
  refine ⟨s0, walkInv_loop _ _ _ hi hs0, hstop _ _ hs0, ?_⟩
  intro fuel hf
  have h1 := antLoop_fuel_mono _ _ _ hs0 fuel hf
  refine ⟨h1, ?_, ?_⟩
  · simp only [antCycle, h1]
  · simp only [ant, antCycle, h1]

/-! ## Returned tours -/

theorem antCycle_ok {tNet : List ℚ} {draws : Nat → ℚ} {fuel : Nat} {r c : Int} {s : AntState}
    (h : antCycle tNet draws fuel r c = .ok s) :
    ∃ s0, antLoop tNet draws fuel (antInit r c 0) = .ok s0 ∧
      s = { s0 with moves := deposit s0.moves } ∧ WalkInv tNet ⟨r, c⟩ s0 := by
  unfold antCycle at h
  split at h
  · exact Except.noConfusion h
  · next s0 hs =>
    simp only [Except.ok.injEq] at h
    exact ⟨s0, hs, h.symm, walkInv_loop _ _ _ (walkInv_init tNet r c 0) hs⟩

theorem ant_ok {tNet : List ℚ} {draws : Nat → ℚ} {fuel : Nat} {r c : Int} {tour : List rckt}
    (h : ant tNet draws fuel r c = .ok tour) :
    ∃ s0, antLoop tNet draws fuel (antInit r c 0) = .ok s0 ∧
      tour = deposit s0.moves ∧ WalkInv tNet ⟨r, c⟩ s0 := by
  unfold ant at h
  split at h
  · exact Except.noConfusion h
  · next s hs =>
    simp only [Except.ok.injEq] at h
    obtain ⟨s0, h1, h2, h3⟩ := antCycle_ok hs
    exact ⟨s0, h1, by rw [← h, h2], h3⟩

theorem deposit_length (ms : List rckt) : (deposit ms).length = ms.length :=
  depositFrom_length _ ms 0

theorem antLoop_after {tNet : List ℚ} {draws : Nat → ℚ} :
    ∀ (fuel : Nat) (s s0 : AntState), antLoop tNet draws fuel s = .ok s0 →
      ∃ n, antAfter tNet draws n s = some s0 ∧ s0.moves.length = s.moves.length + n := by
  intro fuel
  induction fuel with
  | zero => intro s s0 h; exact Except.noConfusion h
  | succ k ih =>
    intro s s0 h
    unfold antLoop at h
    split at h
    · simp only [Except.ok.injEq] at h
      exact ⟨0, by simp [antAfter, h], by simp [h]⟩
    · exact Except.noConfusion h
    · next s2 hs =>
      obtain ⟨n, h1, h2⟩ := ih s2 s0 h
      obtain ⟨m, j, _, _, rfl⟩ := antStep_next hs
      refine ⟨n + 1, by simp only [antAfter, hs]; exact h1, ?_⟩
      rw [h2]
      simp only [List.length_append, List.length_singleton]
      omega

theorem wCycle_eval : antCycle wNet wDraws nSquares 0 0 = .ok wFinal := by decide!

theorem wAnt_eval : ant wNet wDraws nSquares 0 0 = .ok wTour := by
  simp only [ant, wCycle_eval]
  rfl

theorem wNet_length : wNet.length = nSquares * 8 := by simp [wNet]

/-- C1. If the tour that an agent with home square on the board returns has
length `completeTour`, the squares it visits (home, then the destination of each
move) are the 64 squares of the board, each exactly once. -/
theorem complete_tour_visits_every_square (tNet : List ℚ) (draws : Nat → ℚ) (fuel : Nat)
    (r c : Int) (tour : List rckt) (hb : onBoard r c)
    (hret : ant tNet draws fuel r c = .ok tour) (hlen : tour.length = completeTour) :
    (visited ⟨r, c⟩ tour).length = nSquares ∧ (visited ⟨r, c⟩ tour).Nodup ∧
      (∀ sq, sq ∈ visited ⟨r, c⟩ tour ↔ onBoard sq.r sq.c) ∧
      (∀ sq, onBoard sq.r sq.c → (visited ⟨r, c⟩ tour).count sq = 1) ∧
      (visited ⟨r, c⟩ tour).Perm allSquares := by
  obtain ⟨s0, _, rfl, hi⟩ := ant_ok hret
  rw [visited_deposit, ← hi.tabu_eq]
  obtain ⟨_, _, h3, h4⟩ := walkInv_bound ⟨r, c⟩ hb hi
  rw [deposit_length] at hlen
  have hl : s0.tabu.length = nSquares := by
    rw [h3, hlen]; rfl
  have hp := h4 hl
  have hmem : ∀ sq, sq ∈ s0.tabu ↔ onBoard sq.r sq.c := fun sq =>
    (hp.mem_iff).trans (mem_allSquares sq)
  refine ⟨hl, hi.nodup, hmem, ?_, hp⟩
  intro sq hsq
  exact List.count_eq_one_of_mem hi.nodup ((hmem sq).mpr hsq)

theorem complete_tour_visits_every_square_witness :
    onBoard 0 0 ∧ ant wNet wDraws nSquares 0 0 = .ok wTour ∧ wTour.length = completeTour ∧
      (visited ⟨0, 0⟩ wTour).length = nSquares ∧ (visited ⟨0, 0⟩ wTour).Nodup ∧
      (∀ sq, sq ∈ visited ⟨0, 0⟩ wTour ↔ onBoard sq.r sq.c) ∧
      (∀ sq, onBoard sq.r sq.c → (visited ⟨0, 0⟩ wTour).count sq = 1) ∧
      (visited ⟨0, 0⟩ wTour).Perm allSquares :=
  ⟨by decide, wAnt_eval, by decide,
    complete_tour_visits_every_square wNet wDraws nSquares 0 0 wTour (by decide) wAnt_eval
      (by decide)⟩

/-- C2. For a network of full size, a home square on the board and any draws,
the tabu list is home followed by the destinations chosen so far and has no
repeated square, after every number of iterations of the walk and in the state
in which the agent returns its tour. -/
theorem walk_is_simple_path (tNet : List ℚ) (draws : Nat → ℚ) (fuel : Nat) (r c : Int)
    (hnet : tNet.length = nSquares * 8) (hb : onBoard r c) (hfuel : nSquares ≤ fuel) :
    (∀ n s, antAfter tNet draws n (antInit r c 0) = some s →
        s.tabu = visited ⟨r, c⟩ s.moves ∧ s.tabu.Nodup) ∧
      ∃ s, antCycle tNet draws fuel r c = .ok s ∧ ant tNet draws fuel r c = .ok s.moves ∧
        s.tabu = visited ⟨r, c⟩ s.moves ∧ (visited ⟨r, c⟩ s.moves).Nodup := by
  refine ⟨?_, ?_⟩
  · intro n s h
    have hi := antAfter_inv n _ s (walkInv_init tNet r c 0) h
    exact ⟨hi.tabu_eq, hi.nodup⟩
  · obtain ⟨s0, hi, _, hall⟩ := antCycle_returns draws hnet hb
    obtain ⟨_, h2, h3⟩ := hall fuel hfuel
    refine ⟨_, h2, h3, ?_, ?_⟩
    · simp only [visited_deposit]; exact hi.tabu_eq
    · simp only [visited_deposit]; rw [← hi.tabu_eq]; exact hi.nodup

theorem walk_is_simple_path_witness :
    wNet.length = nSquares * 8 ∧ onBoard 0 0 ∧
      (∀ n s, antAfter wNet wDraws n (antInit 0 0 0) = some s →
        s.tabu = visited ⟨0, 0⟩ s.moves ∧ s.tabu.Nodup) ∧
      ∃ s, antCycle wNet wDraws nSquares 0 0 = .ok s ∧
        ant wNet wDraws nSquares 0 0 = .ok s.moves ∧
        s.tabu = visited ⟨0, 0⟩ s.moves ∧ (visited ⟨0, 0⟩ s.moves).Nodup :=
  ⟨wNet_length, by decide,
    walk_is_simple_path wNet wDraws nSquares 0 0 wNet_length (by decide) (le_refl _)⟩

/-- C3. In the state in which the agent returns its tour, move `i` records the
`i`-th visited square as its origin (move 0 the home square) and an offset
index `k < 8` such that `dest` of origin and `k` is flagged on the board and is
the origin recorded by move `i + 1`, or the final square of the agent after the
last move; so consecutive visited squares are on the board and a knight's move
apart. -/
theorem tour_moves_are_knight_moves (tNet : List ℚ) (draws : Nat → ℚ) (fuel : Nat) (r c : Int)
    (hnet : tNet.length = nSquares * 8) (hb : onBoard r c) (hfuel : nSquares ≤ fuel) :
    ∃ s, antCycle tNet draws fuel r c = .ok s ∧ ant tNet draws fuel r c = .ok s.moves ∧
      (∀ i m, s.moves[i]? = some m →
        (visited ⟨r, c⟩ s.moves)[i]? = some ⟨m.r, m.c⟩ ∧ (i = 0 → m.r = r ∧ m.c = c) ∧
        m.k < 8 ∧
        ∃ r1 c1, dest m.r m.c m.k = some (r1, c1, true) ∧
          (∀ n, s.moves[i + 1]? = some n → n.r = r1 ∧ n.c = c1) ∧
          (i + 1 = s.moves.length → s.r = r1 ∧ s.c = c1) ∧
          (visited ⟨r, c⟩ s.moves)[i + 1]? = some ⟨r1, c1⟩) ∧
      (∀ i a b, (visited ⟨r, c⟩ s.moves)[i]? = some a →
        (visited ⟨r, c⟩ s.moves)[i + 1]? = some b →
        onBoard a.r a.c ∧ onBoard b.r b.c ∧ knightApart a b) := by
  obtain ⟨s0, hi, _, hall⟩ := antCycle_returns draws hnet hb
  obtain ⟨_, h2, h3⟩ := hall fuel hfuel
  have hp : isPath ⟨r, c⟩ (deposit s0.moves) ⟨s0.r, s0.c⟩ :=
    isPath_depositFrom _ _ 0 _ _ hi.path
  have hidx := fun i m => isPath_index (deposit s0.moves) ⟨r, c⟩ ⟨s0.r, s0.c⟩ i m hp
  refine ⟨_, h2, h3, hidx, ?_⟩
  intro i a b ha hb1
  have hlt : i < (deposit s0.moves).length := by
    have := (List.getElem?_eq_some.mp hb1).1
    simp only [visited, List.length_cons, List.length_map] at this
    omega
  obtain ⟨g1, _, g3, r1, c1, g4, _, _, g7⟩ := hidx i _ (List.getElem?_eq_getElem hlt)
  simp only at g1 g7 ha hb1
  rw [g1] at ha
  rw [g7] at hb1
  simp only [Option.some.injEq] at ha hb1
  subst ha; subst hb1
  have hon := (isPath_onBoard (a := ⟨r, c⟩) hb hp).2
  have hk := (dest_flag_iff _ _ r1 c1).mp ⟨_, g3, g4⟩
  refine ⟨?_, hk.1, hk.2⟩
  exact hon _ (List.getElem?_mem g1)

theorem tour_moves_are_knight_moves_witness :
    wNet.length = nSquares * 8 ∧ onBoard 0 0 ∧
    ∃ s, antCycle wNet wDraws nSquares 0 0 = .ok s ∧
      ant wNet wDraws nSquares 0 0 = .ok s.moves ∧
      (∀ i m, s.moves[i]? = some m →
        (visited ⟨0, 0⟩ s.moves)[i]? = some ⟨m.r, m.c⟩ ∧ (i = 0 → m.r = 0 ∧ m.c = 0) ∧
        m.k < 8 ∧
        ∃ r1 c1, dest m.r m.c m.k = some (r1, c1, true) ∧
          (∀ n, s.moves[i + 1]? = some n → n.r = r1 ∧ n.c = c1) ∧
          (i + 1 = s.moves.length → s.r = r1 ∧ s.c = c1) ∧
          (visited ⟨0, 0⟩ s.moves)[i + 1]? = some ⟨r1, c1⟩) ∧
      (∀ i a b, (visited ⟨0, 0⟩ s.moves)[i]? = some a →
        (visited ⟨0, 0⟩ s.moves)[i + 1]? = some b →
        onBoard a.r a.c ∧ onBoard b.r b.c ∧ knightApart a b) :=
  ⟨wNet_length, by decide,
    tour_moves_are_knight_moves wNet wDraws nSquares 0 0 wNet_length (by decide) (le_refl _)⟩

/-- C4. For a network of full size, a home square on the board and any draws,
the walk loop of the agent ends: after some `n ≤ completeTour` iterations that
go on, the next one finds no candidate and stops; the loop returns for every
fuel of at least `nSquares`, and the returned tour has length `n`, at most
`completeTour = 63`. -/
theorem walk_terminates_within_complete_tour (tNet : List ℚ) (draws : Nat → ℚ) (r c : Int)
    (hnet : tNet.length = nSquares * 8) (hb : onBoard r c) :
    ∃ s0 tour n, n ≤ completeTour ∧ completeTour = 63 ∧
      antAfter tNet draws n (antInit r c 0) = some s0 ∧ antStep tNet draws s0 = .stop ∧
      tour.length = n ∧
      ∀ fuel, nSquares ≤ fuel →
        antLoop tNet draws fuel (antInit r c 0) = .ok s0 ∧
        ant tNet draws fuel r c = .ok tour := by
  obtain ⟨s0, hi, hstop, hall⟩ := antCycle_returns draws hnet hb
  obtain ⟨n, hn1, hn2⟩ := antLoop_after _ _ _ (hall nSquares (le_refl _)).1
  simp only [antInit, List.length_nil, zero_add] at hn2
  obtain ⟨_, h2, h3, _⟩ := walkInv_bound ⟨r, c⟩ hb hi
  refine ⟨s0, deposit s0.moves, n, ?_, rfl, hn1, hstop, ?_, ?_⟩
  · simp only [completeTour]; omega
  · rw [deposit_length, hn2]
  · intro fuel hf
    exact ⟨(hall fuel hf).1, (hall fuel hf).2.2⟩

theorem walk_terminates_within_complete_tour_witness :
    wNet.length = nSquares * 8 ∧ onBoard 0 0 ∧
    ∃ s0 tour n, n ≤ completeTour ∧ completeTour = 63 ∧
      antAfter wNet wDraws n (antInit 0 0 0) = some s0 ∧ antStep wNet wDraws s0 = .stop ∧
      tour.length = n ∧
      ∀ fuel, nSquares ≤ fuel →
        antLoop wNet wDraws fuel (antInit 0 0 0) = .ok s0 ∧
        ant wNet wDraws fuel 0 0 = .ok tour :=
  ⟨wNet_length, by decide,
    walk_terminates_within_complete_tour wNet wDraws 0 0 wNet_length (by decide)⟩

/-! ## The selection scan -/

theorem cumWeight_cons (m : rckt) (ms : List rckt) (n : Nat) :
    cumWeight (m :: ms) (n + 1) = m.t + cumWeight ms n := by
  simp [cumWeight]

/-- The scan either stops at the first candidate whose cumulative weight
reaches `x`, or no cumulative weight reaches `x` and it ends on the last
candidate. -/
theorem pick_scan (ms : List rckt) :
    ∀ (x : ℚ) (d : rckt),
      (∃ j, j < ms.length ∧ ms[j]? = some (pick x d ms) ∧ x ≤ cumWeight ms (j + 1) ∧
        ∀ i, i < j → cumWeight ms (i + 1) < x) ∨
      ((∀ j, j < ms.length → cumWeight ms (j + 1) < x) ∧ pick x d ms = ms.getLast?.getD d) := by
  induction ms with
  | nil => intro x d; exact Or.inr ⟨fun j hj => absurd hj (Nat.not_lt_zero j), rfl⟩
  | cons m ms ih =>
    intro x d
    by_cases hx : x ≤ m.t
    · refine Or.inl ⟨0, Nat.succ_pos _, by simp [pick, hx], ?_, fun i hi => absurd hi (Nat.not_lt_zero i)⟩
      rw [cumWeight_cons]
      simpa [cumWeight] using hx
    · have hp : pick x d (m :: ms) = pick (x - m.t) m ms := by simp [pick, hx]
      have h0 : cumWeight (m :: ms) (0 + 1) < x := by
        rw [cumWeight_cons]
        simpa [cumWeight] using hx
      rcases ih (x - m.t) m with ⟨j, hj, hget, hle, hlt⟩ | ⟨hall, hlast⟩
      · refine Or.inl ⟨j + 1, Nat.succ_lt_succ hj, ?_, ?_, ?_⟩
        · rw [hp, List.getElem?_cons_succ]; exact hget
        · rw [cumWeight_cons]; linarith
        · intro i hi
          cases i with
          | zero => exact h0
          | succ i =>
            rw [cumWeight_cons]
            have := hlt i (by omega)
            linarith
      · refine Or.inr ⟨?_, ?_⟩
        · intro j hj
          cases j with
          | zero => exact h0
          | succ j =>
            rw [cumWeight_cons]
            have := hall j (by simpa using hj)
            linarith
        · rw [hp, hlast]
          cases ms with
          | nil => rfl
          | cons n ns =>
            rw [List.getLast?_cons_cons, List.getLast?_eq_getLast _ (List.cons_ne_nil n ns)]
            rfl

/-- C5. For a non-empty candidate list and a draw `x` not above the total
weight, the subtractive scan of the agent returns the first candidate, in the
order of the list, whose cumulative weight is at least `x`; for every `x` the
returned move is a member of the list, and it is the last candidate when no
cumulative weight reaches `x`. -/
theorem scan_selects_first_cumulative (unexp : List rckt) (d : rckt) (x : ℚ)
    (hne : unexp ≠ []) :
    pick x d unexp ∈ unexp ∧
      (x ≤ cumWeight unexp unexp.length →
        ∃ j, j < unexp.length ∧ unexp[j]? = some (pick x d unexp) ∧
          x ≤ cumWeight unexp (j + 1) ∧ ∀ i, i < j → cumWeight unexp (i + 1) < x) ∧
      ((∀ j, j < unexp.length → cumWeight unexp (j + 1) < x) →
        unexp.getLast? = some (pick x d unexp)) := by
  have hlen : 0 < unexp.length := List.length_pos.mpr hne
  refine ⟨pick_mem x d unexp hne, ?_, ?_⟩
  · intro hx
    rcases pick_scan unexp x d with h | ⟨hall, _⟩
    · exact h
    · have := hall (unexp.length - 1) (by omega)
      rw [Nat.sub_add_cancel hlen] at this
      exact absurd hx (not_le.mpr this)
  · intro hall
    rcases pick_scan unexp x d with ⟨j, hj, _, hle, _⟩ | ⟨_, hlast⟩
    · exact absurd hle (not_le.mpr (hall j hj))
    · rw [hlast]
      cases hl : unexp.getLast? with
      | none => exact absurd (List.getLast?_eq_none_iff.mp hl) hne
      | some y => rfl

theorem scan_selects_first_cumulative_witness :
    wCands ≠ [] ∧ pick (5 / 8) default wCands = ⟨2, 1, 1, 1 / 4⟩ ∧
      (5 / 8 : ℚ) ≤ cumWeight wCands wCands.length ∧
      (pick (5 / 8) default wCands ∈ wCands ∧
        ((5 / 8 : ℚ) ≤ cumWeight wCands wCands.length →
          ∃ j, j < wCands.length ∧ wCands[j]? = some (pick (5 / 8) default wCands) ∧
            (5 / 8 : ℚ) ≤ cumWeight wCands (j + 1) ∧
            ∀ i, i < j → cumWeight wCands (i + 1) < 5 / 8) ∧
        ((∀ j, j < wCands.length → cumWeight wCands (j + 1) < 5 / 8) →
          wCands.getLast? = some (pick (5 / 8) default wCands))) :=
  ⟨by decide, by decide!, by decide!,
    scan_selects_first_cumulative wCands default (5 / 8) (by decide)⟩

/-! ## Deposits -/

theorem depositValue_eq (len i : Nat) :
    depositValue len i = ((len : ℚ) - (i : ℚ)) / ((completeTour : ℚ) - (i : ℚ)) := by
  simp only [depositValue]
  push_cast
  rfl

theorem deposit_get (ms : List rckt) (i : Nat) :
    (deposit ms)[i]? =
      ms[i]?.map fun (m : rckt) => { m with t := depositValue ms.length i } := by
  simp only [deposit, depositFrom_get, zero_add]

/-- C6. In the tour of length `L` that the agent returns, move `i` is the move
of the walk, which carried the pheromone weight of its edge, with that weight
replaced by the deposit `(L - i) / (completeTour - i)`; the divisor is not
zero. -/
theorem deposit_of_returned_tour (tNet : List ℚ) (draws : Nat → ℚ) (fuel : Nat) (r c : Int)
    (hnet : tNet.length = nSquares * 8) (hb : onBoard r c) (hfuel : nSquares ≤ fuel) :
    ∃ s0 tour, antLoop tNet draws fuel (antInit r c 0) = .ok s0 ∧
      ant tNet draws fuel r c = .ok tour ∧ tour.length = s0.moves.length ∧
      completeTour = 63 ∧
      ∀ (i : Nat) (m0 : rckt), s0.moves[i]? = some m0 →
        readAt tNet (edgeIndex m0.r m0.c m0.k) = some m0.t ∧
        (completeTour : ℚ) - (i : ℚ) ≠ 0 ∧
        tour[i]? = some { m0 with
          t := ((tour.length : ℚ) - (i : ℚ)) / ((completeTour : ℚ) - (i : ℚ)) } := by
  obtain ⟨s0, hi, _, hall⟩ := antCycle_returns draws hnet hb
  obtain ⟨h1, _, h3⟩ := hall fuel hfuel
  obtain ⟨_, g2, g3, _⟩ := walkInv_bound ⟨r, c⟩ hb hi
  refine ⟨s0, deposit s0.moves, h1, h3, deposit_length _, rfl, ?_⟩
  intro i m0 hm
  have hlt : i < s0.moves.length := (List.getElem?_eq_some.mp hm).1
  refine ⟨hi.weight m0 (List.getElem?_mem hm), ?_, ?_⟩
  · have h63 : (completeTour : ℚ) = 63 := by norm_num [completeTour, nSquares, boardSize]
    have hle : i + 1 ≤ 63 := by
      simp only [nSquares, boardSize] at g2
      omega
    have hq : ((i : ℚ) + 1) ≤ 63 := by exact_mod_cast hle
    rw [h63]
    intro h0
    linarith
  · rw [deposit_get, hm, deposit_length, ← depositValue_eq]
    rfl

theorem deposit_of_returned_tour_witness :
    wNet.length = nSquares * 8 ∧ onBoard 0 0 ∧
    ∃ s0 tour, antLoop wNet wDraws nSquares (antInit 0 0 0) = .ok s0 ∧
      ant wNet wDraws nSquares 0 0 = .ok tour ∧ tour.length = s0.moves.length ∧
      completeTour = 63 ∧
      ∀ (i : Nat) (m0 : rckt), s0.moves[i]? = some m0 →
        readAt wNet (edgeIndex m0.r m0.c m0.k) = some m0.t ∧
        (completeTour : ℚ) - (i : ℚ) ≠ 0 ∧
        tour[i]? = some { m0 with
          t := ((tour.length : ℚ) - (i : ℚ)) / ((completeTour : ℚ) - (i : ℚ)) } :=
  ⟨wNet_length, by decide,
    deposit_of_returned_tour wNet wDraws nSquares 0 0 wNet_length (by decide) (le_refl _)⟩

/-- C7, as the spec states it, fails: the agent of square (0, 0) returns a
complete tour on the network `wNet`, and the deposit of its move 1 is not
smaller than the deposit of its move 0. -/
theorem complete_tour_deposit_not_decreasing :
    ¬ ∀ (tNet : List ℚ) (draws : Nat → ℚ) (fuel : Nat) (r c : Int) (tour : List rckt),
        tNet.length = nSquares * 8 → onBoard r c → ant tNet draws fuel r c = .ok tour →
        tour.length = completeTour →
        ∀ (i j : Nat) (mi mj : rckt), i < j → tour[i]? = some mi → tour[j]? = some mj →
          mj.t < mi.t := by
  intro h
  have h1 := h wNet wDraws nSquares 0 0 wTour wNet_length (by decide) wAnt_eval (by decide)
    0 1 ⟨0, 0, 0, 1⟩ ⟨1, 2, 3, 1⟩ (by decide) (by decide) (by decide)
  exact absurd h1 (lt_irrefl _)

/-- C7, amended. In a complete tour (length `completeTour = 63`) that the agent
returns, the divisor `completeTour - i` of every move `i` is not zero and the
deposit `(L - i) / (completeTour - i)` of every move equals 1; the deposits are
constant in `i`, not strictly decreasing. -/
theorem complete_tour_deposit_constant (tNet : List ℚ) (draws : Nat → ℚ) (fuel : Nat)
    (r c : Int) (tour : List rckt) (hret : ant tNet draws fuel r c = .ok tour)
    (hlen : tour.length = completeTour) :
    ∀ (i : Nat) (m : rckt), tour[i]? = some m →
      ((completeTour : Int) - (i : Int) ≠ 0) ∧ m.t = depositValue tour.length i ∧
      m.t = ((tour.length : ℚ) - (i : ℚ)) / ((completeTour : ℚ) - (i : ℚ)) ∧ m.t = 1 := by
  intro i m hm
  obtain ⟨s0, _, rfl, _⟩ := ant_ok hret
  have hlt : i < (deposit s0.moves).length := (List.getElem?_eq_some.mp hm).1
  have hne : (completeTour : Int) - (i : Int) ≠ 0 := by
    rw [hlen] at hlt
    omega
  have hv : m.t = depositValue (deposit s0.moves).length i := by
    rw [deposit_get] at hm
    cases hg : s0.moves[i]? with
    | none => rw [hg] at hm; exact Option.noConfusion hm
    | some m0 =>
      rw [hg] at hm
      simp only [Option.map_some', Option.some.injEq] at hm
      rw [← hm, deposit_length]
  refine ⟨hne, hv, by rw [hv, depositValue_eq], ?_⟩
  rw [hv, hlen]
  simp only [depositValue]
  exact div_self (by exact_mod_cast hne)

theorem complete_tour_deposit_constant_witness :
    ant wNet wDraws nSquares 0 0 = .ok wTour ∧ wTour.length = completeTour ∧
    ∀ (i : Nat) (m : rckt), wTour[i]? = some m →
      ((completeTour : Int) - (i : Int) ≠ 0) ∧ m.t = depositValue wTour.length i ∧
      m.t = ((wTour.length : ℚ) - (i : ℚ)) / ((completeTour : ℚ) - (i : ℚ)) ∧ m.t = 1 :=
  ⟨wAnt_eval, by decide,
    complete_tour_deposit_constant wNet wDraws nSquares 0 0 wTour wAnt_eval (by decide)⟩

/-! ## The key of a complete tour -/

theorem set_at_length {α : Type} (pre : List α) (x v : α) (tl : List α) :
    (pre ++ x :: tl).set pre.length v = pre ++ v :: tl := by
  induction pre with
  | nil => rfl
  | cons a pre ih => simp [List.set, ih]

theorem fillKey_eq (ms : List rckt) :
    ∀ (pre mid post : List Nat) (i : Nat), pre.length = i + 2 → mid.length = ms.length →
      fillKey (pre ++ mid ++ post) i ms =
        some (pre ++ ms.map (fun m => toByte (m.k : Int)) ++ post) := by
  induction ms with
  | nil =>
    intro pre mid post i _ hmid
    have : mid = [] := List.length_eq_zero.mp hmid
    subst this
    simp [fillKey]
  | cons m ms ih =>
    intro pre mid post i hpre hmid
    cases mid with
    | nil => simp at hmid
    | cons x mid =>
      have hw : writeByte (pre ++ x :: mid ++ post) (i + 2) (toByte (m.k : Int)) =
          some (pre ++ [toByte (m.k : Int)] ++ mid ++ post) := by
        have hlt : i + 2 < (pre ++ x :: mid ++ post).length := by
          simp only [List.length_append, List.length_cons]
          omega
        simp only [writeByte, if_pos hlt, Option.some.injEq]
        rw [← hpre, List.append_assoc, List.cons_append, set_at_length]
        simp
      simp only [fillKey, hw]
      rw [ih (pre ++ [toByte (m.k : Int)]) mid post (i + 1) (by simp [hpre])
        (by simpa using hmid)]
      simp

/-- The key built for a tour that fits the buffer: the bytes of the origin of
its first move, then the bytes of the offset indices of its moves, then what
the buffer held beyond them. -/
theorem buildKey_eq (tbuf : List Nat) (tour : List rckt) (m0 : rckt)
    (h0 : tour[0]? = some m0) (hbuf : 2 + tour.length ≤ tbuf.length) :
    buildKey tbuf tour =
      some (toByte m0.r :: toByte m0.c :: tour.map (fun m => toByte (m.k : Int)) ++
        tbuf.drop (2 + tour.length)) := by
  match tbuf, hbuf with
  | [], hbuf => simp only [List.length_nil] at hbuf; omega
  | [_], hbuf => simp only [List.length_cons, List.length_nil] at hbuf; omega
  | a :: b :: rest, hbuf =>
    have hrest : tour.length ≤ rest.length := by
      simp only [List.length_cons] at hbuf
      omega
    have hsplit : rest = rest.take tour.length ++ rest.drop tour.length :=
      (List.take_append_drop _ _).symm
    have hd : (a :: b :: rest).drop (2 + tour.length) = rest.drop tour.length := by
      rw [Nat.add_comm]
      rfl
    simp only [buildKey, h0, writeByte, List.length_cons, Nat.zero_lt_succ, if_true, List.set,
      Nat.succ_lt_succ_iff, hd]
    have := fillKey_eq tour [toByte m0.r, toByte m0.c] (rest.take tour.length)
      (rest.drop tour.length) 0 rfl (by simp [hrest])
    rw [List.append_assoc, ← hsplit] at this
    simpa using this

theorem toByte_small (x : Int) (h0 : 0 ≤ x) (h1 : x < 256) : toByte x = x.toNat := by
  simp only [toByte]
  rw [Int.emod_eq_of_lt h0 h1]

/-- Moves of a chain of legal moves from a board square start on the board and
carry an offset index below 8. -/
theorem isPath_moves {a b : square} {ms : List rckt} (ha : onBoard a.r a.c)
    (hp : isPath a ms b) : ∀ m ∈ ms, onBoard m.r m.c ∧ m.k < 8 := by
  induction ms generalizing a with
  | nil => intro m hm; exact absurd hm (List.not_mem_nil m)
  | cons m0 ms ih =>
    obtain ⟨mid, h1, h2⟩ := hp
    intro m hm
    rcases List.mem_cons.mp hm with rfl | hm
    · obtain ⟨hr, hc, hk, _⟩ := h1
      exact ⟨by rw [hr, hc]; exact ha, hk⟩
    · exact ih (legalMove_onBoard h1) h2 m hm

/-- Moves of a tour returned by an agent with home on the board start on the
board and carry an offset index below 8; the first one starts on the home
square. -/
theorem ant_tour_moves {tNet : List ℚ} {draws : Nat → ℚ} {fuel : Nat} {r c : Int}
    {tour : List rckt} (hb : onBoard r c) (h : ant tNet draws fuel r c = .ok tour) :
    (∀ m ∈ tour, onBoard m.r m.c ∧ m.k < 8) ∧ ∀ m0, tour[0]? = some m0 → m0.r = r ∧ m0.c = c := by
  obtain ⟨s0, _, rfl, hi⟩ := ant_ok h
  have hp : isPath ⟨r, c⟩ (deposit s0.moves) ⟨s0.r, s0.c⟩ :=
    isPath_depositFrom _ _ 0 _ _ hi.path
  exact ⟨isPath_moves (a := ⟨r, c⟩) hb hp, fun m0 h0 => isPath_head hp h0⟩

/-- C9. For a tour of length `completeTour` and a buffer of `2 + completeTour`
bytes, the key that the coordinator builds is the byte of the row and the byte
of the column recorded by the first move, then the bytes of the 63 offset
indices in order, 65 bytes in all, whatever the buffer held before; for a tour
returned by the agent of a board square `(r, c)` these bytes are `r`, `c` and
the offset indices themselves; and two tours with the same first origin and the
same offsets get the same key from any two buffers. -/
theorem key_of_complete_tour (tbuf : List Nat) (tour : List rckt)
    (hbuf : tbuf.length = 2 + completeTour) (hlen : tour.length = completeTour) :
    ∃ m0 key, tour[0]? = some m0 ∧ buildKey tbuf tour = some key ∧
      key = toByte m0.r :: toByte m0.c :: tour.map (fun m => toByte (m.k : Int)) ∧
      key.length = 65 ∧
      (∀ (tNet : List ℚ) (draws : Nat → ℚ) (fuel : Nat) (r c : Int), onBoard r c →
        ant tNet draws fuel r c = .ok tour →
        key = r.toNat :: c.toNat :: tour.map (fun m => m.k)) ∧
      (∀ (tbuf1 : List Nat) (tour1 : List rckt) (m1 : rckt),
        tbuf1.length = 2 + completeTour → tour1.length = completeTour →
        tour1[0]? = some m1 → m1.r = m0.r → m1.c = m0.c →
        tour1.map (fun m => m.k) = tour.map (fun m => m.k) →
        buildKey tbuf1 tour1 = some key) := by
  have hpos : 0 < tour.length := by rw [hlen]; decide
  have key_eq : ∀ (tb : List Nat) (tr : List rckt) (m : rckt), tb.length = 2 + completeTour →
      tr.length = completeTour → tr[0]? = some m →
      buildKey tb tr = some (toByte m.r :: toByte m.c :: tr.map (fun m => toByte (m.k : Int))) := by
    intro tb tr m h1 h2 h3
    rw [buildKey_eq tb tr m h3 (by rw [h1, h2])]
    rw [List.drop_of_length_le (by rw [h1, h2])]
    simp
  refine ⟨tour[0], _, List.getElem?_eq_getElem hpos,
    key_eq tbuf tour _ hbuf hlen (List.getElem?_eq_getElem hpos), rfl, ?_, ?_, ?_⟩
  · simp only [List.length_cons, List.length_map, hlen]
    rfl
  · intro tNet draws fuel r c hb hret
    obtain ⟨hm, h0⟩ := ant_tour_moves hb hret
    obtain ⟨hr, hc⟩ := h0 _ (List.getElem?_eq_getElem hpos)
    rw [hr, hc]
    simp only [onBoard, boardSize] at hb
    rw [toByte_small r (by omega) (by omega), toByte_small c (by omega) (by omega)]
    congr 2
    apply List.map_congr_left
    intro m hmem
    have hk := (hm m hmem).2
    rw [toByte_small _ (by omega) (by omega)]
    rfl
  · intro tbuf1 tour1 m1 h1 h2 h3 h4 h5 h6
    rw [key_eq tbuf1 tour1 m1 h1 h2 h3, h4, h5]
    congr 3
    have := congrArg (List.map fun (k : Nat) => toByte (k : Int)) h6
    simpa [List.map_map] using this

theorem key_of_complete_tour_witness :
    (List.replicate 65 7).length = 2 + completeTour ∧ wTour.length = completeTour ∧
    ∃ m0 key, wTour[0]? = some m0 ∧ buildKey (List.replicate 65 7) wTour = some key ∧
      key = toByte m0.r :: toByte m0.c :: wTour.map (fun m => toByte (m.k : Int)) ∧
      key.length = 65 ∧
      (∀ (tNet : List ℚ) (draws : Nat → ℚ) (fuel : Nat) (r c : Int), onBoard r c →
        ant tNet draws fuel r c = .ok wTour →
        key = r.toNat :: c.toNat :: wTour.map (fun m => m.k)) ∧
      (∀ (tbuf1 : List Nat) (tour1 : List rckt) (m1 : rckt),
        tbuf1.length = 2 + completeTour → tour1.length = completeTour →
        tour1[0]? = some m1 → m1.r = m0.r → m1.c = m0.c →
        tour1.map (fun m => m.k) = wTour.map (fun m => m.k) →
        buildKey tbuf1 tour1 = some key) :=
  ⟨by decide, by decide, key_of_complete_tour (List.replicate 65 7) wTour (by decide) (by decide)⟩

/-! ## Conservation of pheromone in a cycle -/

theorem set_add_sum (xs : List ℚ) :
    ∀ (n : Nat) (x v : ℚ), xs[n]? = some x → (xs.set n (x + v)).sum = xs.sum + v := by
  induction xs with
  | nil => intro n x v h; simp at h
  | cons a xs ih =>
    intro n x v h
    cases n with
    | zero =>
      simp only [List.getElem?_cons_zero, Option.some.injEq] at h
      subst h
      simp only [List.set, List.sum_cons]
      ring
    | succ n =>
      simp only [List.getElem?_cons_succ] at h
      simp only [List.set, List.sum_cons, ih n x v h]
      ring

theorem addAt_ok (xs : List ℚ) (i : Int) (v : ℚ) (h0 : 0 ≤ i) (h1 : i < (xs.length : Int)) :
    ∃ ys, addAt xs i v = some ys ∧ ys.length = xs.length ∧ ys.sum = xs.sum + v := by
  obtain ⟨x, hx⟩ := readAt_some xs i h0 h1
  refine ⟨xs.set i.toNat (x + v), by simp only [addAt, hx], List.length_set _ _ _, ?_⟩
  apply set_add_sum
  simpa [readAt, not_lt.mpr h0] using hx

theorem edgeIndex_range {r c : Int} {k : Nat} (hb : onBoard r c) (hk : k < 8) :
    0 ≤ edgeIndex r c k ∧ edgeIndex r c k < ((nSquares * 8 : Nat) : Int) := by
  simp only [onBoard, boardSize] at hb
  simp only [edgeIndex, nSquares, boardSize]
  omega

theorem accumulate_ok (ms : List rckt) :
    ∀ (xs : List ℚ), xs.length = nSquares * 8 → (∀ m ∈ ms, onBoard m.r m.c ∧ m.k < 8) →
      ∃ ys, accumulate xs ms = some ys ∧ ys.length = nSquares * 8 ∧
        ys.sum = xs.sum + (ms.map rckt.t).sum := by
  induction ms with
  | nil => intro xs hl _; exact ⟨xs, rfl, hl, by simp⟩
  | cons m ms ih =>
    intro xs hl hm
    obtain ⟨h0, h1⟩ := edgeIndex_range (hm m (List.mem_cons_self m ms)).1
      (hm m (List.mem_cons_self m ms)).2
    obtain ⟨ys, hy, hyl, hys⟩ := addAt_ok xs (edgeIndex m.r m.c m.k) m.t h0 (by rw [hl]; exact h1)
    obtain ⟨zs, hz, hzl, hzs⟩ := ih ys (by rw [hyl, hl])
      (fun x hx => hm x (List.mem_cons_of_mem m hx))
    refine ⟨zs, by simp only [accumulate, hy, hz], hzl, ?_⟩
    rw [hzs, hys, List.map_cons, List.sum_cons]
    ring

theorem buildKey_length (tbuf : List Nat) (tour : List rckt)
    (hbuf : tbuf.length = 2 + completeTour) (hlen : tour.length = completeTour) :
    ∃ key, buildKey tbuf tour = some key ∧ key.length = 2 + completeTour := by
  have hpos : 0 < tour.length := by rw [hlen]; decide
  refine ⟨_, buildKey_eq tbuf tour tour[0] (List.getElem?_eq_getElem hpos)
    (by rw [hbuf, hlen]), ?_⟩
  rw [List.drop_of_length_le (by rw [hbuf, hlen])]
  simp only [List.length_cons, List.length_append, List.length_map, List.length_nil, hlen]
  omega

theorem gatherTour_ok (st : Coord) (tour : List rckt) (hnew : st.tNew.length = nSquares * 8)
    (hbuf : st.tbuf.length = 2 + completeTour)
    (hm : ∀ m ∈ tour, onBoard m.r m.c ∧ m.k < 8) :
    ∃ st1, gatherTour st tour = .ok st1 ∧ st1.tNet = st.tNet ∧
      st1.tNew.length = nSquares * 8 ∧ st1.tbuf.length = 2 + completeTour ∧
      st1.tNew.sum = st.tNew.sum + (tour.map rckt.t).sum := by
  obtain ⟨ys, hy, hyl, hys⟩ := accumulate_ok tour st.tNew hnew hm
  by_cases hlen : tour.length = completeTour
  · obtain ⟨key, hk, hkl⟩ := buildKey_length st.tbuf tour hbuf hlen
    refine ⟨{ st with tbuf := key, unique := insert key st.unique,
                      allUnique := insert key st.allUnique, tNew := ys },
      ?_, rfl, hyl, hkl, hys⟩
    simp only [gatherTour, if_pos hlen, hk, hy]
  · refine ⟨{ st with tNew := ys }, ?_, rfl, hyl, hbuf, hys⟩
    simp only [gatherTour, if_neg hlen, hy]

theorem gather_ok (tch : Nat → List rckt) (is : List Nat)
    (hm : ∀ i ∈ is, ∀ m ∈ tch i, onBoard m.r m.c ∧ m.k < 8) :
    ∀ (st : Coord), st.tNew.length = nSquares * 8 → st.tbuf.length = 2 + completeTour →
      ∃ st1, gather tch is st = .ok st1 ∧ st1.tNet = st.tNet ∧
        st1.tNew.length = nSquares * 8 ∧ st1.tbuf.length = 2 + completeTour ∧
        st1.tNew.sum = st.tNew.sum + (is.map fun i => ((tch i).map rckt.t).sum).sum := by
  induction is with
  | nil => intro st h1 h2; exact ⟨st, rfl, rfl, h1, h2, by simp⟩
  | cons i is ih =>
    intro st h1 h2
    obtain ⟨st1, g1, g2, g3, g4, g5⟩ := gatherTour_ok st (tch i) h1 h2
      (hm i (List.mem_cons_self i is))
    obtain ⟨st2, k1, k2, k3, k4, k5⟩ := ih (fun j hj => hm j (List.mem_cons_of_mem i hj)) st1 g3 g4
    refine ⟨st2, by simp only [gather, g1, k1], by rw [k2, g2], k3, k4, ?_⟩
    rw [k5, g5, List.map_cons, List.sum_cons]
    ring

theorem mergeLoop_ok (tNew : List ℚ) :
    ∀ (tNet : List ℚ), tNet.length = tNew.length →
      ∃ p, mergeLoop tNet tNew = some p ∧ p.1.length = tNet.length ∧
        p.1.sum = tNet.sum + tNew.sum ∧ p.2 = List.replicate tNew.length 0 := by
  induction tNew with
  | nil =>
    intro tNet _
    exact ⟨(tNet, []), by cases tNet <;> rfl, rfl, by simp, rfl⟩
  | cons tn tns ih =>
    intro tNet hl
    cases tNet with
    | nil => simp at hl
    | cons x xs =>
      obtain ⟨p, hp, h1, h2, h3⟩ := ih xs (by simpa using hl)
      refine ⟨((x + tn) :: p.1, 0 :: p.2), by simp only [mergeLoop, hp], by simp [h1], ?_, ?_⟩
      · simp only [List.sum_cons, h2]
        ring
      · simp only [h3, List.length_cons, List.replicate_succ]

theorem evaporate_sum (tNet : List ℚ) : (evaporate tNet).sum = 3 / 4 * tNet.sum := by
  induction tNet with
  | nil => simp [evaporate]
  | cons x xs ih =>
    simp only [evaporate, List.map_cons, List.sum_cons] at ih ⊢
    rw [ih]
    ring

/-- C10. Over exact arithmetic, a cycle of the coordinator that starts with a
network of full size, a cleared accumulator and a key buffer of full size, and
that receives `nSquares` tours whose moves start on the board with offset index
below 8, ends without fault; the sum of the network after the merge is 3/4 of
its sum before evaporation plus the sum of the deposits of all moves of all
received tours, and the accumulator is all zero again. -/
theorem cycle_conserves_pheromone (st : Coord) (tch : Nat → List rckt)
    (hnet : st.tNet.length = nSquares * 8)
    (hnew : st.tNew = List.replicate (nSquares * 8) 0)
    (hbuf : st.tbuf.length = 2 + completeTour)
    (hm : ∀ i, i < nSquares → ∀ m ∈ tch i, onBoard m.r m.c ∧ m.k < 8) :
    ∃ st1, cycle st tch = .ok st1 ∧
      st1.tNet.sum = 3 / 4 * st.tNet.sum + tourMass tch ∧
      st1.tNew = List.replicate (nSquares * 8) 0 ∧ st1.tNet.length = nSquares * 8 := by
  obtain ⟨st1, g1, g2, g3, _, g5⟩ := gather_ok tch (List.range nSquares)
    (fun i hi => hm i (List.mem_range.mp hi)) { st with tNet := evaporate st.tNet }
    (by simp [hnew]) hbuf
  have hl : st1.tNet.length = st1.tNew.length := by
    rw [g2, g3]
    simp [evaporate, hnet]
  obtain ⟨p, hp, h1, h2, h3⟩ := mergeLoop_ok st1.tNew st1.tNet hl
  refine ⟨{ st1 with tNet := p.1, tNew := p.2 }, ?_, ?_, ?_, ?_⟩
  · simp only [cycle, g1, hp]
  · simp only [h2, g5, g2, evaporate_sum, hnew, tourMass]
    simp
  · simp only [h3, g3]
  · simp only [h1, hl, g3]

theorem wCoord_tNet : wCoord.tNet.length = nSquares * 8 := by simp [wCoord, wNet]

theorem wCoord_tNew : wCoord.tNew = List.replicate (nSquares * 8) 0 := by simp [wCoord]

theorem wCoord_tbuf : wCoord.tbuf.length = 2 + completeTour := by
  show (List.replicate 65 0).length = 2 + completeTour
  decide

theorem wTour_moves : ∀ m ∈ wTour, onBoard m.r m.c ∧ m.k < 8 := by decide

theorem cycle_conserves_pheromone_witness :
    wCoord.tNet.length = nSquares * 8 ∧ wCoord.tNew = List.replicate (nSquares * 8) 0 ∧
    wCoord.tbuf.length = 2 + completeTour ∧
    ∃ st1, cycle wCoord (fun _ => wTour) = .ok st1 ∧
      st1.tNet.sum = 3 / 4 * wCoord.tNet.sum + tourMass (fun _ => wTour) ∧
      st1.tNew = List.replicate (nSquares * 8) 0 ∧ st1.tNet.length = nSquares * 8 :=
  ⟨wCoord_tNet, wCoord_tNew, wCoord_tbuf,
    cycle_conserves_pheromone wCoord (fun _ => wTour) wCoord_tNet wCoord_tNew wCoord_tbuf
      (fun _ _ => wTour_moves)⟩

/-! ## Bounds on the deposits -/

theorem uAnt_eval : ant uNet uDraws nSquares 3 3 = .ok uTour := by decide!

theorem uNet_length : uNet.length = nSquares * 8 := by simp [uNet]

theorem completeTour_eq : completeTour = 63 := rfl

/-- Entry `i` of a tour after the deposit loop carries `depositValue` of the
length and `i`. -/
theorem deposit_get_t (ms : List rckt) (i : Nat) (m : rckt) (h : (deposit ms)[i]? = some m) :
    i < ms.length ∧ m.t = depositValue ms.length i := by
  have hlt : i < (deposit ms).length := (List.getElem?_eq_some.mp h).1
  rw [deposit_length] at hlt
  rw [deposit_get] at h
  cases hg : ms[i]? with
  | none => rw [hg] at h; exact Option.noConfusion h
  | some m0 =>
    rw [hg] at h
    simp only [Option.map_some', Option.some.injEq] at h
    exact ⟨hlt, by rw [← h]⟩

theorem depositValue_pos (len i : Nat) (hi : i < len) (hl : len ≤ completeTour) :
    0 < depositValue len i ∧ depositValue len i ≤ 1 := by
  rw [depositValue_eq, completeTour_eq] at *
  have h1 : (i : ℚ) < (len : ℚ) := by exact_mod_cast hi
  have h2 : (len : ℚ) ≤ 63 := by exact_mod_cast hl
  have hd : (0 : ℚ) < ((63 : Nat) : ℚ) - (i : ℚ) := by push_cast; linarith
  refine ⟨div_pos (by linarith) hd, ?_⟩
  rw [div_le_one hd]
  push_cast
  linarith

theorem depositValue_lt_one (len i : Nat) (hi : i < len) (hl : len < completeTour) :
    depositValue len i < 1 := by
  rw [depositValue_eq, completeTour_eq] at *
  have h1 : (i : ℚ) < (len : ℚ) := by exact_mod_cast hi
  have h2 : (len : ℚ) < 63 := by exact_mod_cast hl
  have hd : (0 : ℚ) < ((63 : Nat) : ℚ) - (i : ℚ) := by push_cast; linarith
  rw [div_lt_one hd]
  push_cast
  linarith

theorem depositValue_strict_anti (len i j : Nat) (hij : i < j) (hj : j < len)
    (hl : len < completeTour) : depositValue len j < depositValue len i := by
  rw [depositValue_eq, depositValue_eq, completeTour_eq] at *
  have h1 : (i : ℚ) < (j : ℚ) := by exact_mod_cast hij
  have h2 : (j : ℚ) < (len : ℚ) := by exact_mod_cast hj
  have h3 : (len : ℚ) < 63 := by exact_mod_cast hl
  have hdi : (0 : ℚ) < ((63 : Nat) : ℚ) - (i : ℚ) := by push_cast; linarith
  have hdj : (0 : ℚ) < ((63 : Nat) : ℚ) - (j : ℚ) := by push_cast; linarith
  rw [div_lt_div_iff₀ hdj hdi]
  push_cast
  nlinarith

theorem depositValue_complete (i : Nat) (hi : i < completeTour) :
    depositValue completeTour i = 1 := by
  simp only [depositValue]
  have hne : ((completeTour : Nat) : Int) - (i : Int) ≠ 0 := by omega
  exact div_self (by exact_mod_cast hne)

/-- C15. For every tour that an agent with home on the board returns and
every move index `i` of it, the divisor `completeTour - i` of line 221 is not
zero, and the deposit stored in move `i` is strictly positive and at most 1. -/
theorem deposit_positive_at_most_one (tNet : List ℚ) (draws : Nat → ℚ) (fuel : Nat)
    (r c : Int) (tour : List rckt) (hb : onBoard r c)
    (hret : ant tNet draws fuel r c = .ok tour) :
    ∀ (i : Nat) (m : rckt), tour[i]? = some m →
      ((completeTour : Int) - (i : Int) ≠ 0) ∧ m.t = depositValue tour.length i ∧
      0 < m.t ∧ m.t ≤ 1 := by
  intro i m hm
  obtain ⟨s0, _, rfl, hi⟩ := ant_ok hret
  obtain ⟨_, g2, g3, _⟩ := walkInv_bound ⟨r, c⟩ hb hi
  obtain ⟨hlt, ht⟩ := deposit_get_t _ i m hm
  have hl : s0.moves.length ≤ completeTour := by
    simp only [completeTour]
    omega
  have hp := depositValue_pos s0.moves.length i hlt hl
  rw [deposit_length, ht]
  refine ⟨?_, rfl, hp.1, hp.2⟩
  rw [completeTour_eq] at hl ⊢
  omega

theorem deposit_positive_at_most_one_witness :
    onBoard 3 3 ∧ ant uNet uDraws nSquares 3 3 = .ok uTour ∧
    ∀ (i : Nat) (m : rckt), uTour[i]? = some m →
      ((completeTour : Int) - (i : Int) ≠ 0) ∧ m.t = depositValue uTour.length i ∧
      0 < m.t ∧ m.t ≤ 1 :=
  ⟨by decide, uAnt_eval,
    deposit_positive_at_most_one uNet uDraws nSquares 3 3 uTour (by decide) uAnt_eval⟩

/-- C20. In a tour of length `L` that an agent returns, with `1 ≤ L` and
`L < completeTour = 63`, the deposits are strictly decreasing in the move
index and every one of them is below 1; in a tour of length `completeTour`
every deposit is exactly 1. -/
theorem deposit_profile (tNet : List ℚ) (draws : Nat → ℚ) (fuel : Nat) (r c : Int)
    (tour : List rckt) (hret : ant tNet draws fuel r c = .ok tour) :
    (1 ≤ tour.length → tour.length < completeTour →
      (∀ (i j : Nat) (mi mj : rckt), i < j → tour[i]? = some mi → tour[j]? = some mj →
        mj.t < mi.t) ∧
      ∀ (i : Nat) (m : rckt), tour[i]? = some m → m.t < 1) ∧
    (tour.length = completeTour → ∀ (i : Nat) (m : rckt), tour[i]? = some m → m.t = 1) := by
  obtain ⟨s0, _, rfl, _⟩ := ant_ok hret
  rw [deposit_length]
  refine ⟨?_, ?_⟩
  · intro _ hl
    refine ⟨?_, ?_⟩
    · intro i j mi mj hij hmi hmj
      obtain ⟨_, ti⟩ := deposit_get_t _ i mi hmi
      obtain ⟨hj, tj⟩ := deposit_get_t _ j mj hmj
      rw [ti, tj]
      exact depositValue_strict_anti _ i j hij hj hl
    · intro i m hm
      obtain ⟨hi, ti⟩ := deposit_get_t _ i m hm
      rw [ti]
      exact depositValue_lt_one _ i hi hl
  · intro hl i m hm
    obtain ⟨hi, ti⟩ := deposit_get_t _ i m hm
    rw [ti, hl]
    exact depositValue_complete i (by rw [← hl]; exact hi)

theorem deposit_profile_witness :
    ant uNet uDraws nSquares 3 3 = .ok uTour ∧ 1 ≤ uTour.length ∧
    uTour.length < completeTour ∧
    ((1 ≤ uTour.length → uTour.length < completeTour →
      (∀ (i j : Nat) (mi mj : rckt), i < j → uTour[i]? = some mi → uTour[j]? = some mj →
        mj.t < mi.t) ∧
      ∀ (i : Nat) (m : rckt), uTour[i]? = some m → m.t < 1) ∧
    (uTour.length = completeTour → ∀ (i : Nat) (m : rckt), uTour[i]? = some m → m.t = 1)) :=
  ⟨uAnt_eval, by decide, by decide, deposit_profile uNet uDraws nSquares 3 3 uTour uAnt_eval⟩

/-! ## The walk stops only at a dead end -/

theorem antStep_stop {tNet : List ℚ} {draws : Nat → ℚ} {s : AntState}
    (h : antStep tNet draws s = .stop) :
    ∃ tSum, findU tNet s.tabu s.r s.c (List.range 8) [] 0 = .ok ([], tSum) := by
  unfold antStep at h
  split at h
  · exact Step.noConfusion h
  · next unexp tSum hf =>
    split at h
    · next hl =>
      have : unexp = [] := List.length_eq_zero.mp hl
      subst this
      exact ⟨tSum, hf⟩
    · exact Step.noConfusion h

theorem antStep_next_findU {tNet : List ℚ} {draws : Nat → ℚ} {s s1 : AntState}
    (h : antStep tNet draws s = .next s1) :
    ∃ unexp tSum, findU tNet s.tabu s.r s.c (List.range 8) [] 0 = .ok (unexp, tSum) ∧
      unexp ≠ [] := by
  unfold antStep at h
  split at h
  · exact Step.noConfusion h
  · next unexp tSum hf =>
    split at h
    · exact Step.noConfusion h
    · next hl => exact ⟨unexp, tSum, hf, fun e => hl (by rw [e]; rfl)⟩

/-- The candidate list of a board square on a network of full size: in
ascending offset order, exactly the destinations flagged on the board and not
in the tabu list. -/
theorem findU_candidates {tNet : List ℚ} {tabu : List square} {r c : Int}
    {unexp : List rckt} {tSum : ℚ} (hnet : tNet.length = nSquares * 8) (hb : onBoard r c)
    (h : findU tNet tabu r c (List.range 8) [] 0 = .ok (unexp, tSum)) :
    unexp.Pairwise (fun a b => a.k < b.k) ∧
      ∀ k r1 c1, (∃ m ∈ unexp, m.k = k ∧ m.r = r1 ∧ m.c = c1) ↔
        (dest r c k = some (r1, c1, true) ∧ (⟨r1, c1⟩ : square) ∉ tabu) := by
  obtain ⟨h1, _⟩ := findU_ok tNet tabu r c _ _ _ _ h
  simp only [List.nil_append] at h1
  subst h1
  refine ⟨?_, ?_⟩
  · refine List.Pairwise.filterMap _ ?_ (List.pairwise_lt_range 8)
    intro a a1 hlt b hb1 b1 hb2
    rw [(candidate_some hb1).1, (candidate_some hb2).1]
    exact hlt
  · intro k r1 c1
    constructor
    · rintro ⟨m, hm, rfl, rfl, rfl⟩
      obtain ⟨j, _, hj⟩ := List.mem_filterMap.mp hm
      obtain ⟨g1, g2, g3, _⟩ := candidate_some hj
      rw [g1]
      exact ⟨g2, g3⟩
    · rintro ⟨hd, hn⟩
      have hk := dest_some_lt hd
      obtain ⟨h0, hlt⟩ := edgeIndex_range hb hk
      obtain ⟨x, hx⟩ := readAt_some tNet (edgeIndex r c k) h0 (by rw [hnet]; exact hlt)
      refine ⟨⟨r1, c1, k, x⟩, ?_, rfl, rfl, rfl⟩
      refine List.mem_filterMap.mpr ⟨k, List.mem_range.mpr hk, ?_⟩
      simp only [candidate, hd, if_neg hn, hx, Option.map_some']

theorem antAfter_add {tNet : List ℚ} {draws : Nat → ℚ} :
    ∀ (j k : Nat) (s : AntState),
      antAfter tNet draws (j + k) s = (antAfter tNet draws j s).bind (antAfter tNet draws k) := by
  intro j
  induction j with
  | zero => intro k s; simp [antAfter]
  | succ j ih =>
    intro k s
    rw [Nat.add_right_comm]
    simp only [antAfter]
    cases antStep tNet draws s with
    | next s1 => exact ih k s1
    | stop => rfl
    | fault => rfl

/-- A state after which the walk still reaches another state is not a state
in which the loop stops. -/
theorem antAfter_goes_on {tNet : List ℚ} {draws : Nat → ℚ} {j n : Nat} {s0 s s1 : AntState}
    (hj : j < n) (h1 : antAfter tNet draws j s0 = some s)
    (h2 : antAfter tNet draws n s0 = some s1) : ∃ s2, antStep tNet draws s = .next s2 := by
  obtain ⟨k, rfl⟩ : ∃ k, n = j + (k + 1) := ⟨n - j - 1, by omega⟩
  rw [antAfter_add, h1] at h2
  simp only [Option.some_bind, antAfter] at h2
  cases hs : antStep tNet draws s with
  | next s2 => exact ⟨s2, rfl⟩
  | stop => rw [hs] at h2; exact Option.noConfusion h2
  | fault => rw [hs] at h2; exact Option.noConfusion h2

/-- C14. For a network of full size, a home square on the board and any draws,
the walk reaches after some `n` iterations the state in which the agent returns
its tour; there the candidate list is empty and every destination of the final
square that `dest` flags on the board is among the visited squares; in every
state before, the candidate list is non-empty, in ascending offset order, and
holds exactly the flagged destinations of the current square that are not yet
visited. -/
theorem walk_stops_only_at_dead_end (tNet : List ℚ) (draws : Nat → ℚ) (r c : Int)
    (hnet : tNet.length = nSquares * 8) (hb : onBoard r c) :
    ∃ s0 n, antAfter tNet draws n (antInit r c 0) = some s0 ∧
      (∀ fuel, nSquares ≤ fuel → ant tNet draws fuel r c = .ok (deposit s0.moves)) ∧
      (∃ tSum, findU tNet s0.tabu s0.r s0.c (List.range 8) [] 0 = .ok ([], tSum)) ∧
      (∀ k r1 c1, dest s0.r s0.c k = some (r1, c1, true) →
        (⟨r1, c1⟩ : square) ∈ visited ⟨r, c⟩ (deposit s0.moves)) ∧
      ∀ j s, j < n → antAfter tNet draws j (antInit r c 0) = some s →
        ∃ unexp tSum, findU tNet s.tabu s.r s.c (List.range 8) [] 0 = .ok (unexp, tSum) ∧
          unexp ≠ [] ∧ unexp.Pairwise (fun a b => a.k < b.k) ∧
          ∀ k r1 c1, (∃ m ∈ unexp, m.k = k ∧ m.r = r1 ∧ m.c = c1) ↔
            (dest s.r s.c k = some (r1, c1, true) ∧ (⟨r1, c1⟩ : square) ∉ s.tabu) := by
  obtain ⟨s0, hi, hstop, hall⟩ := antCycle_returns draws hnet hb
  obtain ⟨n, hn, _⟩ := antLoop_after _ _ _ (hall nSquares (le_refl _)).1
  obtain ⟨tSum, hf⟩ := antStep_stop hstop
  have hb0 := (walkInv_bound ⟨r, c⟩ hb hi).1
  refine ⟨s0, n, hn, fun fuel hfu => (hall fuel hfu).2.2, ⟨tSum, hf⟩, ?_, ?_⟩
  · intro k r1 c1 hd
    rw [visited_deposit, ← hi.tabu_eq]
    by_contra hnot
    obtain ⟨m, hm, _⟩ := ((findU_candidates hnet hb0 hf).2 k r1 c1).mpr ⟨hd, hnot⟩
    exact absurd hm (List.not_mem_nil m)
  · intro j s hj hs
    obtain ⟨s2, hs2⟩ := antAfter_goes_on hj hs hn
    obtain ⟨unexp, tS, hu, hne⟩ := antStep_next_findU hs2
    have his := antAfter_inv j _ s (walkInv_init tNet r c 0) hs
    have hbs := (walkInv_bound ⟨r, c⟩ hb his).1
    obtain ⟨p1, p2⟩ := findU_candidates hnet hbs hu
    exact ⟨unexp, tS, hu, hne, p1, p2⟩

theorem walk_stops_only_at_dead_end_witness :
    uNet.length = nSquares * 8 ∧ onBoard 3 3 ∧
    ∃ s0 n, antAfter uNet uDraws n (antInit 3 3 0) = some s0 ∧
      (∀ fuel, nSquares ≤ fuel → ant uNet uDraws fuel 3 3 = .ok (deposit s0.moves)) ∧
      (∃ tSum, findU uNet s0.tabu s0.r s0.c (List.range 8) [] 0 = .ok ([], tSum)) ∧
      (∀ k r1 c1, dest s0.r s0.c k = some (r1, c1, true) →
        (⟨r1, c1⟩ : square) ∈ visited ⟨3, 3⟩ (deposit s0.moves)) ∧
      ∀ j s, j < n → antAfter uNet uDraws j (antInit 3 3 0) = some s →
        ∃ unexp tSum, findU uNet s.tabu s.r s.c (List.range 8) [] 0 = .ok (unexp, tSum) ∧
          unexp ≠ [] ∧ unexp.Pairwise (fun a b => a.k < b.k) ∧
          ∀ k r1 c1, (∃ m ∈ unexp, m.k = k ∧ m.r = r1 ∧ m.c = c1) ↔
            (dest s.r s.c k = some (r1, c1, true) ∧ (⟨r1, c1⟩ : square) ∉ s.tabu) :=
  ⟨uNet_length, by decide,
    walk_stops_only_at_dead_end uNet uDraws 3 3 uNet_length (by decide)⟩

/-! ## The effect of gathering one tour -/

theorem readAt_nat (xs : List ℚ) (j : Nat) : readAt xs (j : Int) = xs[j]? := by
  simp [readAt]

theorem readAt_eq_some {xs : List ℚ} {i : Int} {x : ℚ} (h : readAt xs i = some x) :
    0 ≤ i ∧ i.toNat < xs.length ∧ xs[i.toNat]? = some x := by
  unfold readAt at h
  split at h
  · exact Option.noConfusion h
  · next hi =>
    rw [List.get?_eq_getElem?] at h
    exact ⟨not_lt.mp hi, (List.getElem?_eq_some.mp h).1, h⟩

/-- Entry `j` after `xs[i] += v`. -/
theorem addAt_get {xs ys : List ℚ} {i : Int} {v : ℚ} (h : addAt xs i v = some ys) (j : Nat) :
    ys[j]? = if i = (j : Int) then xs[j]?.map (fun x => x + v) else xs[j]? := by
  unfold addAt at h
  split at h
  · exact Option.noConfusion h
  · next x hx =>
    obtain ⟨h0, hlt, hget⟩ := readAt_eq_some hx
    simp only [Option.some.injEq] at h
    subst h
    rw [List.getElem?_set]
    by_cases hij : i = (j : Int)
    · have hj : i.toNat = j := by omega
      rw [if_pos hj, if_pos hlt, if_pos hij, ← hj, hget]
      rfl
    · have hj : i.toNat ≠ j := by omega
      rw [if_neg hj, if_neg hij]

/-- Entry `j` of the accumulator after the deposits of a tour: the old entry
plus the deposits of the moves of the tour on the edge of index `j`. -/
theorem accumulate_get (ms : List rckt) :
    ∀ (xs ys : List ℚ), accumulate xs ms = some ys → ∀ j : Nat,
      ys[j]? = xs[j]?.map fun x =>
        x + ((ms.filter fun m => decide (edgeIndex m.r m.c m.k = (j : Int))).map rckt.t).sum := by
  induction ms with
  | nil =>
    intro xs ys h j
    simp only [accumulate, Option.some.injEq] at h
    subst h
    cases xs[j]? <;> simp
  | cons m ms ih =>
    intro xs ys h j
    unfold accumulate at h
    split at h
    · exact Option.noConfusion h
    · next xs1 h1 =>
      rw [ih xs1 ys h j, addAt_get h1 j]
      by_cases hij : edgeIndex m.r m.c m.k = (j : Int)
      · simp only [hij, if_true, List.filter_cons, decide_True, List.map_cons, List.sum_cons]
        cases xs[j]? with
        | none => rfl
        | some x => simp only [Option.map_some', Option.some.injEq]; ring
      · simp only [hij, if_false, List.filter_cons, decide_False]
        rfl

theorem accumulate_length (ms : List rckt) :
    ∀ (xs ys : List ℚ), accumulate xs ms = some ys → ys.length = xs.length := by
  induction ms with
  | nil => intro xs ys h; simp only [accumulate, Option.some.injEq] at h; rw [h]
  | cons m ms ih =>
    intro xs ys h
    unfold accumulate at h
    split at h
    · exact Option.noConfusion h
    · next xs1 h1 =>
      rw [ih xs1 ys h]
      unfold addAt at h1
      split at h1
      · exact Option.noConfusion h1
      · simp only [Option.some.injEq] at h1
        rw [← h1, List.length_set]

/-- What gathering a tour does to the state, when it does not fault. -/
theorem gatherTour_eq {st st1 : Coord} {tour : List rckt} (h : gatherTour st tour = .ok st1) :
    accumulate st.tNew tour = some st1.tNew ∧ st1.tNet = st.tNet ∧
      (tour.length ≠ completeTour →
        st1.unique = st.unique ∧ st1.allUnique = st.allUnique ∧ st1.tbuf = st.tbuf) ∧
      (tour.length = completeTour → ∃ key, buildKey st.tbuf tour = some key ∧
        st1.unique = insert key st.unique ∧ st1.allUnique = insert key st.allUnique ∧
        st1.tbuf = key) := by
  unfold gatherTour at h
  split at h
  · next hl =>
    split at h
    · exact Except.noConfusion h
    · next key hk =>
      split at h
      · exact Except.noConfusion h
      · next tNew1 ha =>
        simp only [Except.ok.injEq] at h
        subst h
        exact ⟨ha, rfl, fun hne => absurd hl hne, fun _ => ⟨key, hk, rfl, rfl, rfl⟩⟩
  · next hl =>
    split at h
    · exact Except.noConfusion h
    · next tNew1 ha =>
      simp only [Except.ok.injEq] at h
      subst h
      exact ⟨ha, rfl, fun _ => ⟨rfl, rfl, rfl⟩, fun he => absurd he hl⟩

/-- C13. When the coordinator processes a received tour whose moves start on
the board with offset index below 8: a tour of length other than
`completeTour` leaves both key sets unchanged, for a tour of length
`completeTour` its key is inserted into both sets; in either case every entry
of the accumulator grows by the deposits of the moves of the tour on that edge,
so the deposit of every move is added to the entry of its edge and no other
entry changes; the network is not touched. -/
theorem gather_tour_effect (st : Coord) (tour : List rckt)
    (hnew : st.tNew.length = nSquares * 8) (hbuf : st.tbuf.length = 2 + completeTour)
    (hm : ∀ m ∈ tour, onBoard m.r m.c ∧ m.k < 8) :
    ∃ st1, gatherTour st tour = .ok st1 ∧
      (tour.length ≠ completeTour → st1.unique = st.unique ∧ st1.allUnique = st.allUnique) ∧
      (tour.length = completeTour → ∃ key, buildKey st.tbuf tour = some key ∧
        key ∈ st1.unique ∧ key ∈ st1.allUnique ∧
        st1.unique = insert key st.unique ∧ st1.allUnique = insert key st.allUnique) ∧
      st1.tNet = st.tNet ∧ st1.tNew.length = st.tNew.length ∧
      (∀ j : Nat, st1.tNew[j]? = st.tNew[j]?.map fun x =>
        x + ((tour.filter fun m => decide (edgeIndex m.r m.c m.k = (j : Int))).map rckt.t).sum) ∧
      (∀ j : Nat, (∀ m ∈ tour, edgeIndex m.r m.c m.k ≠ (j : Int)) →
        st1.tNew[j]? = st.tNew[j]?) := by
  obtain ⟨st1, h1, _⟩ := gatherTour_ok st tour hnew hbuf hm
  obtain ⟨g1, g2, g3, g4⟩ := gatherTour_eq h1
  have hget := accumulate_get tour st.tNew st1.tNew g1
  refine ⟨st1, h1, fun hne => ⟨(g3 hne).1, (g3 hne).2.1⟩, ?_, g2,
    accumulate_length tour _ _ g1, hget, ?_⟩
  · intro hl
    obtain ⟨key, k1, k2, k3, _⟩ := g4 hl
    exact ⟨key, k1, by rw [k2]; exact Finset.mem_insert_self _ _,
      by rw [k3]; exact Finset.mem_insert_self _ _, k2, k3⟩
  · intro j hj
    rw [hget j]
    have : (tour.filter fun m => decide (edgeIndex m.r m.c m.k = (j : Int))) = [] := by
      rw [List.filter_eq_nil_iff]
      intro m hmem
      simpa using hj m hmem
    rw [this]
    cases st.tNew[j]? <;> simp

theorem gather_tour_effect_witness :
    wCoord.tNew.length = nSquares * 8 ∧ wCoord.tbuf.length = 2 + completeTour ∧
    (∀ m ∈ uTour, onBoard m.r m.c ∧ m.k < 8) ∧
    ∃ st1, gatherTour wCoord uTour = .ok st1 ∧
      (uTour.length ≠ completeTour →
        st1.unique = wCoord.unique ∧ st1.allUnique = wCoord.allUnique) ∧
      (uTour.length = completeTour → ∃ key, buildKey wCoord.tbuf uTour = some key ∧
        key ∈ st1.unique ∧ key ∈ st1.allUnique ∧
        st1.unique = insert key wCoord.unique ∧ st1.allUnique = insert key wCoord.allUnique) ∧
      st1.tNet = wCoord.tNet ∧ st1.tNew.length = wCoord.tNew.length ∧
      (∀ j : Nat, st1.tNew[j]? = wCoord.tNew[j]?.map fun x =>
        x + ((uTour.filter fun m => decide (edgeIndex m.r m.c m.k = (j : Int))).map
          rckt.t).sum) ∧
      (∀ j : Nat, (∀ m ∈ uTour, edgeIndex m.r m.c m.k ≠ (j : Int)) →
        st1.tNew[j]? = wCoord.tNew[j]?) :=
  ⟨by rw [wCoord_tNew]; simp, wCoord_tbuf, by decide,
    gather_tour_effect wCoord uTour (by rw [wCoord_tNew]; simp) wCoord_tbuf (by decide)⟩

/-! ## Indexing stays in range -/

/-- C19. For a network of full size, a home square on the board and any
draws: in every state of the walk the iteration does not fault, and for every
offset index `k < 8` of the candidate loop the index `k` is inside `drc` and
the index `(r*boardSize+c)*8+k` is inside `tNet`; the agent returns a tour, for
every move of which the offset index is inside `drc` and the index of its edge
is inside the accumulator `tNew`; for a complete tour every index `i + 2`
written into the key buffer is inside it; and the coordinator gathers the tour
without fault. -/
theorem per_cycle_indexing_in_range (tNet : List ℚ) (draws : Nat → ℚ) (r c : Int) (st : Coord)
    (hnet : tNet.length = nSquares * 8) (hb : onBoard r c)
    (hnew : st.tNew.length = nSquares * 8) (hbuf : st.tbuf.length = 2 + completeTour) :
    (∀ n s, antAfter tNet draws n (antInit r c 0) = some s →
      antStep tNet draws s ≠ .fault ∧
      ∀ k, k < 8 → k < drc.length ∧ (∃ x, dest s.r s.c k = some x) ∧
        0 ≤ edgeIndex s.r s.c k ∧ edgeIndex s.r s.c k < (512 : Int) ∧
        edgeIndex s.r s.c k < (tNet.length : Int)) ∧
    ∃ tour, (∀ fuel, nSquares ≤ fuel → ant tNet draws fuel r c = .ok tour) ∧
      (∀ m ∈ tour, m.k < drc.length ∧ 0 ≤ edgeIndex m.r m.c m.k ∧
        edgeIndex m.r m.c m.k < (512 : Int) ∧
        edgeIndex m.r m.c m.k < (st.tNew.length : Int)) ∧
      (tour.length = completeTour → st.tbuf.length = 65 ∧
        ∀ i, i < tour.length → i + 2 < st.tbuf.length) ∧
      ∃ st1, gatherTour st tour = .ok st1 := by
  have h512 : ((nSquares * 8 : Nat) : Int) = 512 := by decide
  refine ⟨?_, ?_⟩
  · intro n s hs
    have hi := antAfter_inv n _ s (walkInv_init tNet r c 0) hs
    have hbs := (walkInv_bound ⟨r, c⟩ hb hi).1
    refine ⟨antStep_no_fault draws hnet hbs, ?_⟩
    intro k hk
    obtain ⟨d, _, e⟩ := dest_eq s.r s.c k hk
    obtain ⟨h0, h1⟩ := edgeIndex_range hbs hk
    exact ⟨by rw [drc_length]; exact hk, ⟨_, e⟩, h0, by rw [← h512]; exact h1,
      by rw [hnet]; exact h1⟩
  · obtain ⟨s0, _, _, hall⟩ := antCycle_returns draws hnet hb
    have hret := (hall nSquares (le_refl _)).2.2
    obtain ⟨hmv, _⟩ := ant_tour_moves hb hret
    obtain ⟨st1, h1, _⟩ := gatherTour_ok st (deposit s0.moves) hnew hbuf hmv
    refine ⟨deposit s0.moves, fun fuel hf => (hall fuel hf).2.2, ?_, ?_, st1, h1⟩
    · intro m hm
      obtain ⟨g1, g2⟩ := hmv m hm
      obtain ⟨h0, h1⟩ := edgeIndex_range g1 g2
      exact ⟨by rw [drc_length]; exact g2, h0, by rw [← h512]; exact h1,
        by rw [hnew]; exact h1⟩
    · intro hl
      refine ⟨by rw [hbuf]; rfl, ?_⟩
      intro i hi
      rw [hbuf, ← hl]
      omega

theorem per_cycle_indexing_in_range_witness :
    wNet.length = nSquares * 8 ∧ onBoard 0 0 ∧ wCoord.tNew.length = nSquares * 8 ∧
    wCoord.tbuf.length = 2 + completeTour ∧
    ((∀ n s, antAfter wNet wDraws n (antInit 0 0 0) = some s →
      antStep wNet wDraws s ≠ .fault ∧
      ∀ k, k < 8 → k < drc.length ∧ (∃ x, dest s.r s.c k = some x) ∧
        0 ≤ edgeIndex s.r s.c k ∧ edgeIndex s.r s.c k < (512 : Int) ∧
        edgeIndex s.r s.c k < (wNet.length : Int)) ∧
    ∃ tour, (∀ fuel, nSquares ≤ fuel → ant wNet wDraws fuel 0 0 = .ok tour) ∧
      (∀ m ∈ tour, m.k < drc.length ∧ 0 ≤ edgeIndex m.r m.c m.k ∧
        edgeIndex m.r m.c m.k < (512 : Int) ∧
        edgeIndex m.r m.c m.k < (wCoord.tNew.length : Int)) ∧
      (tour.length = completeTour → wCoord.tbuf.length = 65 ∧
        ∀ i, i < tour.length → i + 2 < wCoord.tbuf.length) ∧
      ∃ st1, gatherTour wCoord tour = .ok st1) :=
  ⟨wNet_length, by decide, by rw [wCoord_tNew]; simp, wCoord_tbuf,
    per_cycle_indexing_in_range wNet wDraws 0 0 wCoord wNet_length (by decide)
      (by rw [wCoord_tNew]; simp) wCoord_tbuf⟩

/-! ## The key determines the tour -/

/-- The key that the coordinator builds for a complete tour returned by the
agent of a board square: row, column, then the offset indices. -/
theorem buildKey_ant {tNet : List ℚ} {draws : Nat → ℚ} {fuel : Nat} {r c : Int}
    {tour : List rckt} (tbuf : List Nat) (hb : onBoard r c)
    (hret : ant tNet draws fuel r c = .ok tour) (hlen : tour.length = completeTour)
    (hbuf : tbuf.length = 2 + completeTour) :
    buildKey tbuf tour = some (r.toNat :: c.toNat :: tour.map (fun m => m.k)) := by
  have hpos : 0 < tour.length := by rw [hlen]; decide
  obtain ⟨hm, h0⟩ := ant_tour_moves hb hret
  obtain ⟨hr, hc⟩ := h0 _ (List.getElem?_eq_getElem hpos)
  rw [buildKey_eq tbuf tour tour[0] (List.getElem?_eq_getElem hpos) (by rw [hbuf, hlen]),
    List.drop_of_length_le (by rw [hbuf, hlen]), hr, hc]
  simp only [onBoard, boardSize] at hb
  rw [toByte_small r (by omega) (by omega), toByte_small c (by omega) (by omega),
    List.append_nil]
  congr 3
  apply List.map_congr_left
  intro m hmem
  have hk := (hm m hmem).2
  rw [toByte_small _ (by omega) (by omega)]
  rfl

/-- Two chains of legal moves from the same square with the same offset
indices pass through the same squares, and the deposit loop gives them the
same tour. -/
theorem isPath_determined (ms1 : List rckt) :
    ∀ (ms2 : List rckt) (a b1 b2 : square), isPath a ms1 b1 → isPath a ms2 b2 →
      ms1.map (fun m => m.k) = ms2.map (fun m => m.k) →
      ∀ (len i : Nat), depositFrom len i ms1 = depositFrom len i ms2 := by
  induction ms1 with
  | nil =>
    intro ms2 a b1 b2 _ _ hk len i
    cases ms2 with
    | nil => rfl
    | cons m ms => simp at hk
  | cons m1 ms1 ih =>
    intro ms2 a b1 b2 h1 h2 hk len i
    cases ms2 with
    | nil => simp at hk
    | cons m2 ms2 =>
      obtain ⟨mid1, l1, p1⟩ := h1
      obtain ⟨mid2, l2, p2⟩ := h2
      simp only [List.map_cons, List.cons.injEq] at hk
      obtain ⟨hk0, hks⟩ := hk
      obtain ⟨r1, c1, _, d1⟩ := l1
      obtain ⟨r2, c2, _, d2⟩ := l2
      have hr : m1.r = m2.r := by rw [r1, r2]
      have hc : m1.c = m2.c := by rw [c1, c2]
      have hmid : mid1 = mid2 := by
        rw [hr, hc, hk0, d2] at d1
        simp only [Option.some.injEq, Prod.mk.injEq, and_true] at d1
        cases mid1; cases mid2
        simp only [square.mk.injEq]
        exact ⟨d1.1.symm, d1.2.symm⟩
      subst hmid
      simp only [depositFrom, List.cons.injEq, rckt.mk.injEq, and_true]
      exact ⟨⟨hr, hc, hk0⟩, ih ms2 mid1 b1 b2 p1 p2 hks len (i + 1)⟩

/-- C17. If the keys that the coordinator builds for two complete tours
returned by agents with home on the board are equal, the two agents have the
same home square, the two tours visit the same squares in the same order, and
the tours are equal move by move; the conversions to bytes lose nothing. -/
theorem key_injective_on_complete_tours (tNet1 tNet2 : List ℚ) (draws1 draws2 : Nat → ℚ)
    (fuel1 fuel2 : Nat) (r1 c1 r2 c2 : Int) (tour1 tour2 : List rckt) (tbuf1 tbuf2 : List Nat)
    (key : List Nat) (hb1 : onBoard r1 c1) (hb2 : onBoard r2 c2)
    (hret1 : ant tNet1 draws1 fuel1 r1 c1 = .ok tour1)
    (hret2 : ant tNet2 draws2 fuel2 r2 c2 = .ok tour2)
    (hlen1 : tour1.length = completeTour) (hlen2 : tour2.length = completeTour)
    (hbuf1 : tbuf1.length = 2 + completeTour) (hbuf2 : tbuf2.length = 2 + completeTour)
    (hk1 : buildKey tbuf1 tour1 = some key) (hk2 : buildKey tbuf2 tour2 = some key) :
    r1 = r2 ∧ c1 = c2 ∧ visited ⟨r1, c1⟩ tour1 = visited ⟨r2, c2⟩ tour2 ∧ tour1 = tour2 ∧
      key = r1.toNat :: c1.toNat :: tour1.map (fun m => m.k) := by
  have e1 := buildKey_ant tbuf1 hb1 hret1 hlen1 hbuf1
  have e2 := buildKey_ant tbuf2 hb2 hret2 hlen2 hbuf2
  rw [hk1] at e1
  rw [hk2] at e2
  have hkey : key = r1.toNat :: c1.toNat :: tour1.map (fun m => m.k) := Option.some.inj e1
  have hkey2 : key = r2.toNat :: c2.toNat :: tour2.map (fun m => m.k) := Option.some.inj e2
  rw [hkey] at hkey2
  simp only [List.cons.injEq] at hkey2
  obtain ⟨hr, hc, hks⟩ := hkey2
  simp only [onBoard] at hb1 hb2
  have hr' : r1 = r2 := by omega
  have hc' : c1 = c2 := by omega
  subst hr'; subst hc'
  obtain ⟨s1, _, rfl, i1⟩ := ant_ok hret1
  obtain ⟨s2, _, rfl, i2⟩ := ant_ok hret2
  have hmk : ∀ ms : List rckt, (deposit ms).map (fun m => m.k) = ms.map (fun m => m.k) := by
    intro ms
    apply List.ext_getElem?
    intro n
    simp only [List.getElem?_map, deposit_get]
    cases ms[n]? <;> rfl
  rw [hmk, hmk] at hks
  rw [deposit_length] at hlen1 hlen2
  have heq : deposit s1.moves = deposit s2.moves := by
    simp only [deposit, hlen1, hlen2]
    exact isPath_determined s1.moves s2.moves _ _ _ i1.path i2.path hks _ _
  exact ⟨rfl, rfl, by rw [heq], heq, hkey⟩

theorem wAnt_eval2 : ant wNet wDraws2 nSquares 0 0 = .ok wTour := by decide!

theorem key_injective_on_complete_tours_witness :
    onBoard 0 0 ∧ ant wNet wDraws nSquares 0 0 = .ok wTour ∧
    ant wNet wDraws2 nSquares 0 0 = .ok wTour ∧ wTour.length = completeTour ∧
    buildKey (List.replicate 65 7) wTour = some (0 :: 0 :: wOffsets) ∧
    buildKey (List.replicate 65 0) wTour = some (0 :: 0 :: wOffsets) ∧
    ((0 : Int) = 0 ∧ (0 : Int) = 0 ∧ visited ⟨0, 0⟩ wTour = visited ⟨0, 0⟩ wTour ∧
      wTour = wTour ∧
      0 :: 0 :: wOffsets = (0 : Int).toNat :: (0 : Int).toNat :: wTour.map (fun m => m.k)) :=
  ⟨by decide, wAnt_eval, wAnt_eval2, by decide, by decide, by decide,
    key_injective_on_complete_tours wNet wNet wDraws wDraws2 nSquares nSquares 0 0 0 0
      wTour wTour (List.replicate 65 7) (List.replicate 65 0) (0 :: 0 :: wOffsets)
      (by decide) (by decide) wAnt_eval wAnt_eval2 (by decide) (by decide) (by decide)
      (by decide) (by decide) (by decide)⟩

/-! ## Seeding -/

theorem readAt_of_nonneg (xs : List ℚ) (i : Int) (h : 0 ≤ i) : readAt xs i = xs[i.toNat]? := by
  simp only [readAt, if_neg (not_lt.mpr h), List.get?_eq_getElem?]

theorem readAt_neg (xs : List ℚ) (i : Int) (h : i < 0) : readAt xs i = none := by
  simp only [readAt, if_pos h]

theorem patched_none (v : ℚ) (xs : List ℚ) : Patched (fun _ => False) v xs xs :=
  ⟨rfl, fun _ => ⟨fun h => absurd h id, fun _ => rfl⟩⟩

theorem patched_iff {P Q : Int → Prop} {v : ℚ} {xs ys : List ℚ} (h : Patched P v xs ys)
    (hpq : ∀ j, P j ↔ Q j) : Patched Q v xs ys :=
  ⟨h.1, fun j => ⟨fun hq => (h.2 j).1 ((hpq j).mpr hq),
    fun hq => (h.2 j).2 (fun hp => hq ((hpq j).mp hp))⟩⟩

theorem patched_trans {P Q : Int → Prop} {v : ℚ} {xs ys zs : List ℚ}
    (h1 : Patched P v xs ys) (h2 : Patched Q v ys zs) :
    Patched (fun j => P j ∨ Q j) v xs zs := by
  refine ⟨h2.1.trans h1.1, fun j => ⟨?_, ?_⟩⟩
  · intro hpq
    by_cases hq : Q j
    · exact (h2.2 j).1 hq
    · rw [(h2.2 j).2 hq]
      exact (h1.2 j).1 (hpq.resolve_right hq)
  · intro hn
    rw [(h2.2 j).2 (fun hq => hn (Or.inr hq)), (h1.2 j).2 (fun hp => hn (Or.inl hp))]

theorem writeAt_patched (xs : List ℚ) (i : Int) (v : ℚ) (h0 : 0 ≤ i)
    (h1 : i < (xs.length : Int)) :
    ∃ ys, writeAt xs i v = some ys ∧ Patched (fun j => j = i) v xs ys := by
  obtain ⟨x, hx⟩ := readAt_some xs i h0 h1
  have hlt : i.toNat < xs.length := by omega
  refine ⟨xs.set i.toNat v, by simp only [writeAt, hx], List.length_set _ _ _, fun j => ⟨?_, ?_⟩⟩
  · intro hj
    subst hj
    rw [readAt_of_nonneg _ _ h0, List.getElem?_set, if_pos rfl, if_pos hlt]
  · intro hj
    by_cases hneg : j < 0
    · rw [readAt_neg _ _ hneg, readAt_neg _ _ hneg]
    · have hj0 : 0 ≤ j := not_lt.mp hneg
      have hne : i.toNat ≠ j.toNat := by omega
      rw [readAt_of_nonneg _ _ hj0, readAt_of_nonneg _ _ hj0, List.getElem?_set, if_neg hne]

/-- A loop whose bodies each write `v` at the indices of a set writes `v` at
the union of these sets. -/
theorem forEach_patched {α : Type} (body : α → List ℚ → Option (List ℚ))
    (Q : α → Int → Prop) (v : ℚ) (n : Nat) (as : List α)
    (hbody : ∀ a ∈ as, ∀ xs : List ℚ, xs.length = n →
      ∃ ys, body a xs = some ys ∧ Patched (Q a) v xs ys) :
    ∀ xs : List ℚ, xs.length = n →
      ∃ ys, forEach body as xs = some ys ∧ Patched (fun j => ∃ a ∈ as, Q a j) v xs ys := by
  induction as with
  | nil =>
    intro xs _
    exact ⟨xs, rfl, patched_iff (patched_none v xs) (fun j => by simp)⟩
  | cons a as ih =>
    intro xs hl
    obtain ⟨ys, hy, py⟩ := hbody a (List.mem_cons_self a as) xs hl
    obtain ⟨zs, hz, pz⟩ := ih (fun b hb => hbody b (List.mem_cons_of_mem a hb)) ys
      (by rw [py.1, hl])
    refine ⟨zs, by simp only [forEach, hy, hz], patched_iff (patched_trans py pz) ?_⟩
    intro j
    simp only [List.mem_cons, exists_eq_or_imp]

theorem flagged_iff_dest (r c : Int) (k : Nat) (hk : k < 8) :
    (flagged r c k → ∃ r1 c1, dest r c k = some (r1, c1, true)) ∧
      (¬ flagged r c k → ∃ r1 c1, dest r c k = some (r1, c1, false)) := by
  obtain ⟨d, _, e⟩ := dest_eq r c k hk
  refine ⟨fun h => h, fun h => ?_⟩
  cases hok : decide (onBoard (r + d.1) (c + d.2)) with
  | true => rw [hok] at e; exact absurd ⟨_, _, e⟩ h
  | false => rw [hok] at e; exact ⟨_, _, e⟩

theorem seedEdge_patched (r c : Int) (k : Nat) (hb : onBoard r c) (hk : k < 8) (xs : List ℚ)
    (hl : xs.length = nSquares * 8) :
    ∃ ys, seedEdge r c k xs = some ys ∧
      Patched (fun j => flagged r c k ∧ edgeIndex r c k = j) (1 / 1000000) xs ys := by
  obtain ⟨h0, h1⟩ := edgeIndex_range hb hk
  by_cases hf : flagged r c k
  · obtain ⟨r1, c1, hd⟩ := hf
    obtain ⟨ys, hy, py⟩ := writeAt_patched xs (edgeIndex r c k) (1 / 1000000) h0
      (by rw [hl]; exact h1)
    refine ⟨ys, by simp only [seedEdge, hd, if_true, hy], patched_iff py ?_⟩
    intro j
    exact ⟨fun h => ⟨⟨r1, c1, hd⟩, h.symm⟩, fun h => h.2.symm⟩
  · obtain ⟨r1, c1, hd⟩ := (flagged_iff_dest r c k hk).2 hf
    refine ⟨xs, by simp [seedEdge, hd], patched_iff (patched_none _ xs) ?_⟩
    intro j
    exact ⟨fun h => absurd h id, fun h => hf h.1⟩

theorem edgeIndex_inj {r c r1 c1 : Int} {k k1 : Nat} (hb : onBoard r c) (hb1 : onBoard r1 c1)
    (hk : k < 8) (hk1 : k1 < 8) (h : edgeIndex r c k = edgeIndex r1 c1 k1) :
    r = r1 ∧ c = c1 ∧ k = k1 := by
  simp only [onBoard, boardSize] at hb hb1
  simp only [edgeIndex, boardSize] at h
  omega

/-- Seeding a slice of full size does not fault; it writes `1e-6` on every
legal edge and leaves every other edge of a board square as it was. -/
theorem seed_spec (xs : List ℚ) (hl : xs.length = nSquares * 8) :
    ∃ ys, seed xs = some ys ∧ ys.length = nSquares * 8 ∧
      ∀ r c k, onBoard r c → k < 8 →
        (flagged r c k → readAt ys (edgeIndex r c k) = some (1 / 1000000)) ∧
        (¬ flagged r c k → readAt ys (edgeIndex r c k) = readAt xs (edgeIndex r c k)) := by
  have hrange : ∀ a : Nat, a ∈ List.range boardSize → 0 ≤ (a : Int) ∧ (a : Int) < boardSize := by
    intro a ha
    have := List.mem_range.mp ha
    omega
  obtain ⟨ys, hy, py⟩ := forEach_patched
    (fun (r : Nat) => forEach (fun (c : Nat) =>
      forEach (fun (k : Nat) => seedEdge (r : Int) (c : Int) k) (List.range 8))
      (List.range boardSize))
    (fun (r : Nat) j => ∃ c ∈ List.range boardSize, ∃ k ∈ List.range 8,
      flagged (r : Int) ((c : Nat) : Int) k ∧ edgeIndex (r : Int) (c : Int) k = j)
    (1 / 1000000) (nSquares * 8) (List.range boardSize)
    (fun r hr => forEach_patched _ _ _ _ _
      (fun c hc => forEach_patched _ _ _ _ _
        (fun k hk zs hz => seedEdge_patched (r : Int) (c : Int) k
          ⟨(hrange r hr).1, (hrange r hr).2, (hrange c hc).1, (hrange c hc).2⟩
          (List.mem_range.mp hk) zs hz)))
    xs hl
  refine ⟨ys, hy, by rw [py.1, hl], ?_⟩
  intro r c k hb hk
  have hP : (∃ a ∈ List.range boardSize, ∃ b ∈ List.range boardSize, ∃ k1 ∈ List.range 8,
      flagged (a : Int) ((b : Nat) : Int) k1 ∧ edgeIndex (a : Int) (b : Int) k1 = edgeIndex r c k)
      ↔ flagged r c k := by
    constructor
    · rintro ⟨a, ha, b, hb1, k1, hk1, hf, he⟩
      obtain ⟨e1, e2, e3⟩ := edgeIndex_inj
        ⟨(hrange a ha).1, (hrange a ha).2, (hrange b hb1).1, (hrange b hb1).2⟩ hb
        (List.mem_range.mp hk1) hk he
      rw [e1, e2, e3] at hf
      exact hf
    · intro hf
      have hb' := hb
      simp only [onBoard, boardSize] at hb'
      refine ⟨r.toNat, List.mem_range.mpr (by simp only [boardSize]; omega), c.toNat,
        List.mem_range.mpr (by simp only [boardSize]; omega), k, List.mem_range.mpr hk, ?_⟩
      rw [Int.toNat_of_nonneg hb'.1, Int.toNat_of_nonneg hb'.2.2.1]
      exact ⟨hf, rfl⟩
  exact ⟨fun hf => (py.2 _).1 (hP.mpr hf), fun hf => (py.2 _).2 (fun h => hf (hP.mp h))⟩

/-! ## Operations of the coordinator, entry by entry -/

theorem index_decode (j : Nat) (hj : j < nSquares * 8) :
    onBoard ((j / 64 : Nat) : Int) ((j / 8 % 8 : Nat) : Int) ∧ j % 8 < 8 ∧
      edgeIndex ((j / 64 : Nat) : Int) ((j / 8 % 8 : Nat) : Int) (j % 8) = (j : Int) := by
  simp only [nSquares, boardSize] at hj
  simp only [onBoard, edgeIndex, boardSize]
  omega

theorem readAt_map (f : ℚ → ℚ) (xs : List ℚ) (i : Int) :
    readAt (xs.map f) i = (readAt xs i).map f := by
  by_cases h : i < 0
  · rw [readAt_neg _ _ h, readAt_neg _ _ h]; rfl
  · rw [readAt_of_nonneg _ _ (not_lt.mp h), readAt_of_nonneg _ _ (not_lt.mp h),
      List.getElem?_map]

theorem readAt_replicate (n : Nat) (v : ℚ) (i : Int) (h0 : 0 ≤ i) (h1 : i < (n : Int)) :
    readAt (List.replicate n v) i = some v := by
  rw [readAt_of_nonneg _ _ h0, List.getElem?_replicate, if_pos (by omega)]

theorem illegalZero_replicate : IllegalZero (List.replicate (nSquares * 8) 0) := by
  intro r c k hb hk _
  obtain ⟨h0, h1⟩ := edgeIndex_range hb hk
  exact readAt_replicate _ _ _ h0 h1

/-- Entries of the network after the merge. -/
theorem mergeLoop_get (tNew : List ℚ) :
    ∀ (tNet : List ℚ) (p : List ℚ × List ℚ), mergeLoop tNet tNew = some p →
      tNet.length = tNew.length →
      p.1.length = tNet.length ∧ p.2 = List.replicate tNew.length 0 ∧
      ∀ (j : Nat) (z : ℚ), p.1[j]? = some z →
        ∃ x y, tNet[j]? = some x ∧ tNew[j]? = some y ∧ z = x + y := by
  induction tNew with
  | nil =>
    intro tNet p h hl
    have : tNet = [] := List.length_eq_zero.mp hl
    subst this
    simp only [mergeLoop, Option.some.injEq] at h
    subst h
    exact ⟨rfl, rfl, fun j z hz => by simp at hz⟩
  | cons tn tns ih =>
    intro tNet p h hl
    cases tNet with
    | nil => simp at hl
    | cons x xs =>
      unfold mergeLoop at h
      split at h
      · exact Option.noConfusion h
      · next q hq =>
        simp only [Option.some.injEq] at h
        subst h
        obtain ⟨h1, h2, h3⟩ := ih xs q hq (by simpa using hl)
        refine ⟨by simp [h1], by simp [h2, List.replicate_succ], ?_⟩
        intro j z hz
        cases j with
        | zero =>
          simp only [List.getElem?_cons_zero, Option.some.injEq] at hz
          exact ⟨x, tn, List.getElem?_cons_zero, List.getElem?_cons_zero, hz.symm⟩
        | succ j =>
          simp only [List.getElem?_cons_succ] at hz ⊢
          exact h3 j z hz

theorem isPath_flagged {a b : square} {ms : List rckt} (ha : onBoard a.r a.c)
    (hp : isPath a ms b) : ∀ m ∈ ms, onBoard m.r m.c ∧ m.k < 8 ∧ flagged m.r m.c m.k := by
  induction ms generalizing a with
  | nil => intro m hm; exact absurd hm (List.not_mem_nil m)
  | cons m0 ms ih =>
    obtain ⟨mid, h1, h2⟩ := hp
    intro m hm
    rcases List.mem_cons.mp hm with rfl | hm
    · obtain ⟨hr, hc, hk, hd⟩ := h1
      exact ⟨by rw [hr, hc]; exact ha, hk, ⟨_, _, hd⟩⟩
    · exact ih (legalMove_onBoard h1) h2 m hm

/-- Moves of a tour that an agent returns: they start on the board, follow a
legal edge and carry a deposit in `(0, 1]`. -/
theorem antTour_moves {tNet : List ℚ} {tour : List rckt} (h : AntTour tNet tour) :
    ∀ m ∈ tour, onBoard m.r m.c ∧ m.k < 8 ∧ flagged m.r m.c m.k ∧ 0 < m.t ∧ m.t ≤ 1 := by
  obtain ⟨draws, fuel, r, c, hb, hret⟩ := h
  obtain ⟨s0, _, rfl, hi⟩ := ant_ok hret
  have hp : isPath ⟨r, c⟩ (deposit s0.moves) ⟨s0.r, s0.c⟩ :=
    isPath_depositFrom _ _ 0 _ _ hi.path
  obtain ⟨_, g2, g3, _⟩ := walkInv_bound ⟨r, c⟩ hb hi
  have hl : s0.moves.length ≤ completeTour := by
    simp only [completeTour]
    omega
  intro m hm
  obtain ⟨f1, f2, f3⟩ := isPath_flagged (a := ⟨r, c⟩) hb hp m hm
  obtain ⟨i, hi1⟩ := List.mem_iff_getElem?.mp hm
  obtain ⟨hlt, ht⟩ := deposit_get_t _ i m hi1
  have hpos := depositValue_pos s0.moves.length i hlt hl
  rw [ht]
  exact ⟨f1, f2, f3, hpos.1, hpos.2⟩

theorem legalIndex_iff (j : Nat) :
    legalIndex j = true ↔ flagged ((j / 64 : Nat) : Int) ((j / 8 % 8 : Nat) : Int) (j % 8) := by
  unfold legalIndex flagged
  constructor
  · intro h
    split at h
    · next r1 c1 hd => exact ⟨r1, c1, hd⟩
    · exact absurd h (by decide)
  · rintro ⟨r1, c1, hd⟩
    rw [hd]

theorem uNet_get (j : Nat) (hj : j < nSquares * 8) :
    uNet[j]? = some (if legalIndex j then 1 / 1000000 else 0) := by
  unfold uNet
  rw [List.getElem?_map, List.getElem?_range hj]
  rfl

/-- Seeding a slice of full size that is zero on the illegal edges gives the
network `uNet`. -/
theorem seed_eq_uNet (xs : List ℚ) (hl : xs.length = nSquares * 8) (hz : IllegalZero xs) :
    seed xs = some uNet := by
  obtain ⟨ys, hy, hyl, hs⟩ := seed_spec xs hl
  rw [hy]
  refine congrArg some (List.ext_getElem? fun j => ?_)
  by_cases hj : j < nSquares * 8
  · obtain ⟨hb, hk, he⟩ := index_decode j hj
    obtain ⟨s1, s2⟩ := hs _ _ _ hb hk
    rw [uNet_get j hj, ← readAt_nat, ← he]
    by_cases hf : flagged ((j / 64 : Nat) : Int) ((j / 8 % 8 : Nat) : Int) (j % 8)
    · rw [s1 hf, if_pos ((legalIndex_iff j).mpr hf)]
    · rw [s2 hf, hz _ _ _ hb hk hf, if_neg (fun h => hf ((legalIndex_iff j).mp h))]
  · rw [List.getElem?_eq_none (by rw [hyl]; omega),
      List.getElem?_eq_none (by rw [uNet_length]; omega)]

/-! ## Invariants of the reachable states -/

theorem accumulate_sum_nonneg {tour : List rckt} (ht : ∀ m ∈ tour, 0 ≤ m.t) (j : Nat) :
    0 ≤ ((tour.filter fun m => decide (edgeIndex m.r m.c m.k = (j : Int))).map rckt.t).sum := by
  apply List.sum_nonneg
  intro x hx
  obtain ⟨m, hm, rfl⟩ := List.mem_map.mp hx
  exact ht m (List.mem_of_mem_filter hm)

theorem coordInv_init : CoordInv false coordInit where
  netLen := by simp [coordInit]
  newLen := by simp [coordInit]
  netNonneg := fun x hx => by
    simp only [coordInit] at hx
    rw [(List.mem_replicate.mp hx).2]
  newNonneg := fun x hx => by
    simp only [coordInit] at hx
    rw [(List.mem_replicate.mp hx).2]
  netIllegal := illegalZero_replicate
  newIllegal := illegalZero_replicate
  netLegal := fun h => absurd h (by decide)

theorem coordInv_seed {b : Bool} {st : Coord} {tNet1 : List ℚ} (hi : CoordInv b st)
    (h : seed st.tNet = some tNet1) :
    CoordInv true { st with unique := ∅, tNet := tNet1 } := by
  obtain ⟨ys, hy, hyl, hs⟩ := seed_spec st.tNet hi.netLen
  rw [h] at hy
  cases hy
  refine ⟨hyl, hi.newLen, ?_, hi.newNonneg, ?_, hi.newIllegal, ?_⟩
  · intro x hx
    obtain ⟨j, hj⟩ := List.mem_iff_getElem?.mp hx
    have hlt : j < nSquares * 8 := by
      rw [← hyl]; exact (List.getElem?_eq_some.mp hj).1
    obtain ⟨hb, hk, he⟩ := index_decode j hlt
    obtain ⟨s1, s2⟩ := hs _ _ _ hb hk
    rw [← readAt_nat, ← he] at hj
    by_cases hf : flagged ((j / 64 : Nat) : Int) ((j / 8 % 8 : Nat) : Int) (j % 8)
    · rw [s1 hf] at hj
      cases hj
      norm_num
    · rw [s2 hf, hi.netIllegal _ _ _ hb hk hf] at hj
      cases hj
      exact le_refl _
  · intro r c k hb hk hf
    rw [(hs r c k hb hk).2 hf]
    exact hi.netIllegal r c k hb hk hf
  · intro _ r c k hb hf
    obtain ⟨r1, c1, hd⟩ := hf
    exact ⟨_, (hs r c k hb (dest_some_lt hd)).1 ⟨r1, c1, hd⟩, by norm_num⟩

theorem coordInv_evaporate {b : Bool} {st : Coord} (hi : CoordInv b st) :
    CoordInv b { st with tNet := evaporate st.tNet } := by
  refine ⟨by simp [evaporate, hi.netLen], hi.newLen, ?_, hi.newNonneg, ?_, hi.newIllegal, ?_⟩
  · intro x hx
    obtain ⟨y, hy, rfl⟩ := List.mem_map.mp hx
    have := hi.netNonneg y hy
    linarith
  · intro r c k hb hk hf
    simp only [evaporate]
    rw [readAt_map, hi.netIllegal r c k hb hk hf]
    simp
  · intro hb1 r c k hb hf
    obtain ⟨x, hx, hpos⟩ := hi.netLegal hb1 r c k hb hf
    refine ⟨x * (3 / 4), ?_, by linarith⟩
    simp only [evaporate]
    rw [readAt_map, hx]
    rfl

theorem coordInv_gather {b : Bool} {st st1 : Coord} {tour : List rckt} (hi : CoordInv b st)
    (ht : AntTour st.tNet tour) (h : gatherTour st tour = .ok st1) : CoordInv b st1 := by
  obtain ⟨g1, g2, _, _⟩ := gatherTour_eq h
  have hmv := antTour_moves ht
  have hget := accumulate_get tour st.tNew st1.tNew g1
  have hlen := accumulate_length tour _ _ g1
  refine ⟨by rw [g2]; exact hi.netLen, by rw [hlen]; exact hi.newLen,
    by rw [g2]; exact hi.netNonneg, ?_, by rw [g2]; exact hi.netIllegal, ?_,
    by rw [g2]; exact hi.netLegal⟩
  · intro x hx
    obtain ⟨j, hj⟩ := List.mem_iff_getElem?.mp hx
    rw [hget j] at hj
    cases hx0 : st.tNew[j]? with
    | none => rw [hx0] at hj; exact Option.noConfusion hj
    | some x0 =>
      rw [hx0] at hj
      simp only [Option.map_some', Option.some.injEq] at hj
      have h0 := hi.newNonneg x0 (List.getElem?_mem hx0)
      have h1 := accumulate_sum_nonneg (fun m hm => le_of_lt (hmv m hm).2.2.2.1) j
      rw [← hj]
      linarith
  · intro r c k hb hk hf
    obtain ⟨h0, _⟩ := edgeIndex_range hb hk
    have hold := hi.newIllegal r c k hb hk hf
    rw [readAt_of_nonneg _ _ h0] at hold ⊢
    rw [hget, hold]
    have hempty : (tour.filter fun m =>
        decide (edgeIndex m.r m.c m.k = ((edgeIndex r c k).toNat : Int))) = [] := by
      rw [List.filter_eq_nil_iff]
      intro m hm
      simp only [decide_eq_true_eq]
      intro he
      rw [Int.toNat_of_nonneg h0] at he
      obtain ⟨f1, f2, f3, _⟩ := hmv m hm
      obtain ⟨e1, e2, e3⟩ := edgeIndex_inj f1 hb f2 hk he
      rw [e1, e2, e3] at f3
      exact hf f3
    rw [hempty]
    simp

theorem coordInv_merge {b : Bool} {st : Coord} {p : List ℚ × List ℚ} (hi : CoordInv b st)
    (h : mergeLoop st.tNet st.tNew = some p) :
    CoordInv b { st with tNet := p.1, tNew := p.2 } := by
  obtain ⟨h1, h2, h3⟩ := mergeLoop_get st.tNew st.tNet p h (by rw [hi.netLen, hi.newLen])
  have hval : ∀ (i : Int) (x : ℚ), readAt st.tNet i = some x → readAt st.tNew i = some 0 →
      readAt p.1 i = some x := by
    intro i x hx hy
    obtain ⟨i0, ilt, hgx⟩ := readAt_eq_some hx
    obtain ⟨_, _, hgy⟩ := readAt_eq_some hy
    rw [readAt_of_nonneg _ _ i0]
    cases hz : p.1[i.toNat]? with
    | none =>
      rw [List.getElem?_eq_none_iff] at hz
      omega
    | some z =>
      obtain ⟨x1, y1, q1, q2, q3⟩ := h3 _ z hz
      rw [hgx] at q1
      rw [hgy] at q2
      cases q1; cases q2
      rw [q3, add_zero]
  refine ⟨by rw [h1]; exact hi.netLen, by rw [h2, hi.newLen]; simp, ?_, ?_, ?_, ?_, ?_⟩
  · intro z hz
    obtain ⟨j, hj⟩ := List.mem_iff_getElem?.mp hz
    obtain ⟨x, y, q1, q2, q3⟩ := h3 j z hj
    have := hi.netNonneg x (List.getElem?_mem q1)
    have := hi.newNonneg y (List.getElem?_mem q2)
    linarith
  · intro x hx
    rw [h2] at hx
    rw [(List.mem_replicate.mp hx).2]
  · intro r c k hb hk hf
    exact hval _ 0 (hi.netIllegal r c k hb hk hf) (hi.newIllegal r c k hb hk hf)
  · rw [h2, hi.newLen]
    exact illegalZero_replicate
  · intro hb1 r c k hb hf
    obtain ⟨x, hx, hpos⟩ := hi.netLegal hb1 r c k hb hf
    obtain ⟨r1, c1, hd⟩ := hf
    obtain ⟨i0, ilt⟩ := edgeIndex_range hb (dest_some_lt hd)
    obtain ⟨y, hy⟩ := readAt_some st.tNew _ i0 (by rw [hi.newLen]; exact ilt)
    obtain ⟨_, _, hgx⟩ := readAt_eq_some hx
    obtain ⟨_, _, hgy⟩ := readAt_eq_some hy
    have hy0 := hi.newNonneg y (List.getElem?_mem hgy)
    rw [readAt_of_nonneg _ _ i0]
    cases hz : p.1[(edgeIndex r c k).toNat]? with
    | none =>
      rw [List.getElem?_eq_none_iff, h1] at hz
      have := (List.getElem?_eq_some.mp hgx).1
      omega
    | some z =>
      obtain ⟨x1, y1, q1, q2, q3⟩ := h3 _ z hz
      rw [hgx] at q1
      rw [hgy] at q2
      cases q1; cases q2
      exact ⟨z, rfl, by rw [q3]; linarith⟩

/-- Every reachable state of the coordinator satisfies the invariant. -/
theorem reachable_inv {b : Bool} {st : Coord} (h : Reachable b st) : CoordInv b st := by
  induction h with
  | init => exact coordInv_init
  | seed _ hs ih => exact coordInv_seed ih hs
  | evaporate _ ih => exact coordInv_evaporate ih
  | gather _ ht hg ih => exact coordInv_gather ih ht hg
  | merge _ hm ih => exact coordInv_merge ih hm

/-! ## The network in the reachable states -/

theorem uSeeded_reachable : Reachable true uSeeded :=
  Reachable.seed Reachable.init
    (seed_eq_uNet coordInit.tNet coordInv_init.netLen coordInv_init.netIllegal)

theorem uCoord_reachable : Reachable true uCoord :=
  Reachable.evaporate uSeeded_reachable

/-- C11. In every state that the operations of the coordinator reach from the
initial allocation (seeding, evaporation, accumulation of the deposits of
agents' tours, merge) every entry of the network `tNet` is at least 0, and so
is every entry of the accumulator `tNew`. -/
theorem network_nonneg (b : Bool) (st : Coord) (h : Reachable b st) :
    (∀ x ∈ st.tNet, 0 ≤ x) ∧ (∀ x ∈ st.tNew, 0 ≤ x) :=
  ⟨(reachable_inv h).netNonneg, (reachable_inv h).newNonneg⟩

theorem network_nonneg_witness :
    Reachable true uCoord ∧ (∀ x ∈ uCoord.tNet, 0 ≤ x) ∧ (∀ x ∈ uCoord.tNew, 0 ≤ x) :=
  ⟨uCoord_reachable, network_nonneg true uCoord uCoord_reachable⟩

/-- The total weight of a non-empty candidate list on a network that is
positive on the legal edges is positive. -/
theorem findU_tSum_pos {tNet : List ℚ} {tabu : List square} {r c : Int} {unexp : List rckt}
    {tSum : ℚ} (hpos : LegalPositive tNet) (hb : onBoard r c)
    (h : findU tNet tabu r c (List.range 8) [] 0 = .ok (unexp, tSum)) (hne : unexp ≠ []) :
    0 < tSum ∧ ∀ m ∈ unexp, 0 < m.t := by
  obtain ⟨h1, h2⟩ := findU_ok tNet tabu r c _ _ _ _ h
  simp only [List.nil_append, zero_add] at h1 h2
  have hall : ∀ m ∈ unexp, 0 < m.t := by
    intro m hm
    rw [h1] at hm
    obtain ⟨k, _, hk⟩ := List.mem_filterMap.mp hm
    obtain ⟨_, g2, _, g4⟩ := candidate_some hk
    obtain ⟨x, hx, hx0⟩ := hpos r c k hb ⟨_, _, g2⟩
    rw [g4] at hx
    cases hx
    exact hx0
  refine ⟨?_, hall⟩
  rw [h2, ← h1]
  apply List.sum_pos
  · intro x hx
    obtain ⟨m, hm, rfl⟩ := List.mem_map.mp hx
    exact hall m hm
  · intro he
    exact hne (List.map_eq_nil_iff.mp he)

/-- C18. Over exact arithmetic, in every reachable state of the coordinator
the network is exactly 0 on every edge of a board square that is not legal, so
that seeding it gives the network `uNet` (`1e-6` on the legal edges, 0
elsewhere) whatever happened before; and in every state reachable after a
seeding the network is strictly positive on every legal edge, so that the
total weight `tSum` of a non-empty candidate list is strictly positive. -/
theorem network_positive_on_legal_edges (b : Bool) (st : Coord) (h : Reachable b st) :
    (∀ r c k, onBoard r c → k < 8 → ¬ flagged r c k →
      readAt st.tNet (edgeIndex r c k) = some 0) ∧
    seed st.tNet = some uNet ∧
    (b = true →
      (∀ r c k, onBoard r c → flagged r c k →
        ∃ x, readAt st.tNet (edgeIndex r c k) = some x ∧ 0 < x) ∧
      ∀ (tabu : List square) (r c : Int) (unexp : List rckt) (tSum : ℚ), onBoard r c →
        findU st.tNet tabu r c (List.range 8) [] 0 = .ok (unexp, tSum) → unexp ≠ [] →
        0 < tSum) := by
  have hi := reachable_inv h
  refine ⟨hi.netIllegal, seed_eq_uNet st.tNet hi.netLen hi.netIllegal, ?_⟩
  intro hb
  refine ⟨hi.netLegal hb, ?_⟩
  intro tabu r c unexp tSum hon hf hne
  exact (findU_tSum_pos (hi.netLegal hb) hon hf hne).1

theorem network_positive_on_legal_edges_witness :
    Reachable true uCoord ∧
    ((∀ r c k, onBoard r c → k < 8 → ¬ flagged r c k →
      readAt uCoord.tNet (edgeIndex r c k) = some 0) ∧
    seed uCoord.tNet = some uNet ∧
    (true = true →
      (∀ r c k, onBoard r c → flagged r c k →
        ∃ x, readAt uCoord.tNet (edgeIndex r c k) = some x ∧ 0 < x) ∧
      ∀ (tabu : List square) (r c : Int) (unexp : List rckt) (tSum : ℚ), onBoard r c →
        findU uCoord.tNet tabu r c (List.range 8) [] 0 = .ok (unexp, tSum) → unexp ≠ [] →
        0 < tSum)) :=
  ⟨uCoord_reachable, network_positive_on_legal_edges true uCoord uCoord_reachable⟩

/-! ## The key sets across repeats -/

/-- Sizes that a run of the coordinator keeps: the two pheromone slices and the
key buffer. -/
theorem cycle_ok (st : Coord) (tch : Nat → List rckt) (hnet : st.tNet.length = nSquares * 8)
    (hnew : st.tNew.length = nSquares * 8) (hbuf : st.tbuf.length = 2 + completeTour)
    (hm : ∀ i, ∀ m ∈ tch i, onBoard m.r m.c ∧ m.k < 8) :
    ∃ st1, cycle st tch = .ok st1 ∧ st1.tNet.length = nSquares * 8 ∧
      st1.tNew.length = nSquares * 8 ∧ st1.tbuf.length = 2 + completeTour := by
  obtain ⟨st1, g1, g2, g3, g4, _⟩ := gather_ok tch (List.range nSquares)
    (fun i _ => hm i) { st with tNet := evaporate st.tNet } hnew hbuf
  have hl : st1.tNet.length = st1.tNew.length := by
    rw [g2, g3]
    simp [evaporate, hnet]
  obtain ⟨p, hp, h1, _, h3⟩ := mergeLoop_ok st1.tNew st1.tNet hl
  refine ⟨{ st1 with tNet := p.1, tNew := p.2 }, ?_, ?_, ?_, g4⟩
  · simp only [cycle, g1, hp]
  · simp only [h1, hl, g3]
  · simp only [h3, g3, List.length_replicate]

theorem cyclesLoop_ok (tchs : Nat → Nat → List rckt)
    (hm : ∀ i j, ∀ m ∈ tchs i j, onBoard m.r m.c ∧ m.k < 8) (is : List Nat) :
    ∀ st : Coord, st.tNet.length = nSquares * 8 → st.tNew.length = nSquares * 8 →
      st.tbuf.length = 2 + completeTour →
      ∃ st1, cyclesLoop tchs is st = .ok st1 ∧ st1.tNet.length = nSquares * 8 ∧
        st1.tNew.length = nSquares * 8 ∧ st1.tbuf.length = 2 + completeTour := by
  induction is with
  | nil => intro st h1 h2 h3; exact ⟨st, rfl, h1, h2, h3⟩
  | cons i is ih =>
    intro st h1 h2 h3
    obtain ⟨st1, g0, g1, g2, g3⟩ := cycle_ok st (tchs i) h1 h2 h3 (hm i)
    obtain ⟨st2, k0, k1, k2, k3⟩ := ih st1 g1 g2 g3
    exact ⟨st2, by simp only [cyclesLoop, g0, k0], k1, k2, k3⟩

theorem repeatBody_ok (st : Coord) (tchs : Nat → Nat → List rckt)
    (hm : ∀ i j, ∀ m ∈ tchs i j, onBoard m.r m.c ∧ m.k < 8)
    (hnet : st.tNet.length = nSquares * 8) (hnew : st.tNew.length = nSquares * 8)
    (hbuf : st.tbuf.length = 2 + completeTour) :
    ∃ st1, repeatBody st tchs = .ok st1 ∧ st1.tNet.length = nSquares * 8 ∧
      st1.tNew.length = nSquares * 8 ∧ st1.tbuf.length = 2 + completeTour := by
  obtain ⟨ys, hy, hyl, _⟩ := seed_spec st.tNet hnet
  obtain ⟨st1, g0, g1, g2, g3⟩ := cyclesLoop_ok tchs hm (List.range cycles)
    { st with unique := ∅, tNet := ys } hyl hnew hbuf
  exact ⟨st1, by simp only [repeatBody, hy, g0], g1, g2, g3⟩

/-- Gathering a tour keeps the cumulative key set equal to what it was at the
start of the repeat together with the key set of the repeat. -/
theorem gatherTour_sets {st st1 : Coord} {tour : List rckt} (h : gatherTour st tour = .ok st1)
    (base : Finset (List Nat)) (hs : st.allUnique = base ∪ st.unique) :
    st1.allUnique = base ∪ st1.unique := by
  obtain ⟨_, _, g3, g4⟩ := gatherTour_eq h
  by_cases hl : tour.length = completeTour
  · obtain ⟨key, _, k2, k3, _⟩ := g4 hl
    rw [k2, k3, hs, Finset.union_insert]
  · obtain ⟨k2, k3, _⟩ := g3 hl
    rw [k2, k3, hs]

theorem gather_sets (tch : Nat → List rckt) (is : List Nat) (base : Finset (List Nat)) :
    ∀ st st1 : Coord, gather tch is st = .ok st1 → st.allUnique = base ∪ st.unique →
      st1.allUnique = base ∪ st1.unique := by
  induction is with
  | nil =>
    intro st st1 h hs
    simp only [gather, Except.ok.injEq] at h
    rw [← h]; exact hs
  | cons i is ih =>
    intro st st1 h hs
    unfold gather at h
    split at h
    · exact Except.noConfusion h
    · next st2 h2 => exact ih st2 st1 h (gatherTour_sets h2 base hs)

theorem cycle_sets {st st1 : Coord} {tch : Nat → List rckt} (h : cycle st tch = .ok st1)
    (base : Finset (List Nat)) (hs : st.allUnique = base ∪ st.unique) :
    st1.allUnique = base ∪ st1.unique := by
  unfold cycle at h
  split at h
  · exact Except.noConfusion h
  · next st2 h2 =>
    split at h
    · exact Except.noConfusion h
    · simp only [Except.ok.injEq] at h
      rw [← h]
      exact gather_sets tch _ base _ st2 h2 hs

theorem cyclesLoop_sets (tchs : Nat → Nat → List rckt) (is : List Nat)
    (base : Finset (List Nat)) :
    ∀ st st1 : Coord, cyclesLoop tchs is st = .ok st1 → st.allUnique = base ∪ st.unique →
      st1.allUnique = base ∪ st1.unique := by
  induction is with
  | nil =>
    intro st st1 h hs
    simp only [cyclesLoop, Except.ok.injEq] at h
    rw [← h]; exact hs
  | cons i is ih =>
    intro st st1 h hs
    unfold cyclesLoop at h
    split at h
    · exact Except.noConfusion h
    · next st2 h2 => exact ih st2 st1 h (cycle_sets h2 base hs)

/-- At the end of a repeat the cumulative key set is the one from before the
repeat together with the key set of the repeat. -/
theorem repeatBody_sets {st st1 : Coord} {tchs : Nat → Nat → List rckt}
    (h : repeatBody st tchs = .ok st1) : st1.allUnique = st.allUnique ∪ st1.unique := by
  unfold repeatBody at h
  split at h
  · exact Except.noConfusion h
  · next ys hy =>
    exact cyclesLoop_sets tchs _ st.allUnique _ st1 h (by simp)

theorem unionUnique_cons (st : Coord) (ends : List Coord) :
    unionUnique (st :: ends) = st.unique ∪ unionUnique ends := rfl

theorem unionUnique_take_mono (ends : List Coord) :
    ∀ n, unionUnique (ends.take n) ⊆ unionUnique (ends.take (n + 1)) := by
  induction ends with
  | nil => intro n; simp
  | cons st ends ih =>
    intro n
    cases n with
    | zero => simp [unionUnique]
    | succ n =>
      simp only [List.take_succ_cons, unionUnique_cons]
      exact Finset.union_subset_union (Finset.Subset.refl _) (ih n)

theorem repeats_sets (tch : Nat → Nat → Nat → List rckt) (reps : List Nat) :
    ∀ (st : Coord) (ends : List Coord), repeats tch reps st = .ok ends →
      ends.length = reps.length ∧
      ∀ (j : Nat) (stj : Coord), ends[j]? = some stj →
        stj.allUnique = st.allUnique ∪ unionUnique (ends.take (j + 1)) ∧
        stj.unique ⊆ stj.allUnique := by
  induction reps with
  | nil =>
    intro st ends h
    simp only [repeats, Except.ok.injEq] at h
    subst h
    exact ⟨rfl, fun j stj hj => by simp at hj⟩
  | cons rep reps ih =>
    intro st ends h
    unfold repeats at h
    split at h
    · exact Except.noConfusion h
    · next st1 h1 =>
      split at h
      · exact Except.noConfusion h
      · next tr htr =>
        simp only [Except.ok.injEq] at h
        subst h
        obtain ⟨hl, hall⟩ := ih st1 tr htr
        have hs1 := repeatBody_sets h1
        refine ⟨by simp [hl], ?_⟩
        intro j stj hj
        cases j with
        | zero =>
          simp only [List.getElem?_cons_zero, Option.some.injEq] at hj
          subst hj
          refine ⟨?_, ?_⟩
          · rw [hs1]
            simp [unionUnique]
          · rw [hs1]
            exact Finset.subset_union_right
        | succ j =>
          simp only [List.getElem?_cons_succ] at hj
          obtain ⟨q1, q2⟩ := hall j stj hj
          refine ⟨?_, q2⟩
          rw [q1, hs1, List.take_succ_cons, unionUnique_cons, Finset.union_assoc]

theorem repeats_ok (tch : Nat → Nat → Nat → List rckt)
    (hm : ∀ rep i j, ∀ m ∈ tch rep i j, onBoard m.r m.c ∧ m.k < 8) (reps : List Nat) :
    ∀ st : Coord, st.tNet.length = nSquares * 8 → st.tNew.length = nSquares * 8 →
      st.tbuf.length = 2 + completeTour → ∃ ends, repeats tch reps st = .ok ends := by
  induction reps with
  | nil => intro st _ _ _; exact ⟨[], rfl⟩
  | cons rep reps ih =>
    intro st h1 h2 h3
    obtain ⟨st1, g0, g1, g2, g3⟩ := repeatBody_ok st (tch rep) (hm rep) h1 h2 h3
    obtain ⟨tr, htr⟩ := ih st1 g1 g2 g3
    exact ⟨st1 :: tr, by simp only [repeats, g0, htr]⟩

/-- C12. A run of `n` repeats of the coordinator from its initial state, on
tours whose moves start on the board with offset index below 8, does not
fault; at the end of every repeat the cumulative key set `allUnique` is the
union of the per-repeat key sets built so far, so the reported cumulative count
is the size of that union, is at least the reported count of the repeat, and
is at most the cumulative count reported for the next repeat. -/
theorem unique_accumulation (tch : Nat → Nat → Nat → List rckt) (n : Nat)
    (hm : ∀ rep i j, ∀ m ∈ tch rep i j, onBoard m.r m.c ∧ m.k < 8) :
    ∃ ends, repeats tch (List.range' 1 n) coordInit = .ok ends ∧ ends.length = n ∧
      ∀ (j : Nat) (st : Coord), ends[j]? = some st →
        st.allUnique = unionUnique (ends.take (j + 1)) ∧
        (report (j + 1) st).allUnique = (unionUnique (ends.take (j + 1))).card ∧
        (report (j + 1) st).unique ≤ (report (j + 1) st).allUnique ∧
        ∀ st2, ends[j + 1]? = some st2 →
          st.allUnique ⊆ st2.allUnique ∧
          (report (j + 1) st).allUnique ≤ (report (j + 2) st2).allUnique := by
  obtain ⟨ends, ht⟩ := repeats_ok tch hm (List.range' 1 n) coordInit
    coordInv_init.netLen coordInv_init.newLen (by simp [coordInit])
  obtain ⟨hl, hall⟩ := repeats_sets tch _ coordInit ends ht
  have h0 : coordInit.allUnique = ∅ := rfl
  refine ⟨ends, ht, by rw [hl, List.length_range'], ?_⟩
  intro j st hj
  obtain ⟨q1, q2⟩ := hall j st hj
  rw [h0, Finset.empty_union] at q1
  refine ⟨q1, by simp only [report, q1], Finset.card_le_card q2, ?_⟩
  intro st2 hj2
  obtain ⟨p1, _⟩ := hall (j + 1) st2 hj2
  rw [h0, Finset.empty_union] at p1
  have hsub : st.allUnique ⊆ st2.allUnique := by
    rw [q1, p1]
    exact unionUnique_take_mono ends (j + 1)
  exact ⟨hsub, Finset.card_le_card hsub⟩

theorem unique_accumulation_witness :
    (∀ (rep i j : Nat), ∀ m ∈ (fun (_ _ _ : Nat) => wTour) rep i j,
      onBoard m.r m.c ∧ m.k < 8) ∧
    ∃ ends, repeats (fun _ _ _ => wTour) (List.range' 1 2) coordInit = .ok ends ∧
      ends.length = 2 ∧
      ∀ (j : Nat) (st : Coord), ends[j]? = some st →
        st.allUnique = unionUnique (ends.take (j + 1)) ∧
        (report (j + 1) st).allUnique = (unionUnique (ends.take (j + 1))).card ∧
        (report (j + 1) st).unique ≤ (report (j + 1) st).allUnique ∧
        ∀ st2, ends[j + 1]? = some st2 →
          st.allUnique ⊆ st2.allUnique ∧
          (report (j + 1) st).allUnique ≤ (report (j + 2) st2).allUnique :=
  ⟨fun _ _ _ => wTour_moves,
    unique_accumulation (fun _ _ _ => wTour) 2 (fun _ _ _ => wTour_moves)⟩

end Knight
